import Mathlib

/-!
Verification of the SocksStrata SOCKS5 gateway core against its
natural-language specification.  The Go source is shallowly embedded:
pure protocol parsing becomes functions over byte lists (bytes are `Nat`,
reads that hit EOF are modelled by running out of list), mutable state
(per-proxy alive flags, per-hop rotation counters, per-user combo caches)
is threaded explicitly, and the network is abstracted by an environment
function saying which upstream proxies accept a handshake.
-/

namespace SocksStrata

/-! ## writeFull (src/writefull.go)

`writeFull(w, buf)` loops `n, err := w.Write(buf); if err != nil return err;
buf = buf[n:]` until the buffer is empty.  The writer is modelled by a
script: one `WriteResp` per call, giving the count the writer reports and
the error it returns. -/

/-- One response of the modelled `io.Writer`: the byte count reported and
the error returned (`none` is the nil error). -/
structure WriteResp where
  n : Nat
  err : Option String
deriving DecidableEq, Repr

/-- Run of `writeFull` against a scripted writer.  Returns the list of
buffers submitted to `Write` (each call submits the whole remaining
buffer, as the Go code does) and the outcome: `some none` means the nil
return, `some (some e)` means error `e` was returned, `none` means the
script was exhausted while bytes remained (the run is not determined). -/
def writeFull : List WriteResp → List Nat → List (List Nat) × Option (Option String)
  | _, [] => ([], some none)
  | [], _ :: _ => ([], none)
  | r :: script, b :: buf =>
    match r.err with
    | some e => ([b :: buf], some (some e))
    | none =>
      let res := writeFull script ((b :: buf).drop r.n)
      ((b :: buf) :: res.1, res.2)

/-- A scripted run is accurate when every successful response reports at
most as many bytes as were submitted on that call (the `io.Writer`
contract). -/
def accurateRun : List WriteResp → List Nat → Bool
  | _, [] => true
  | [], _ :: _ => true
  | r :: script, b :: buf =>
    match r.err with
    | some _ => true
    | none => decide (r.n ≤ (b :: buf).length) && accurateRun script ((b :: buf).drop r.n)

/-- Total number of bytes the writer acknowledged over the successful
calls of the run (an erroring call contributes nothing further). -/
def acceptedBytes : List WriteResp → List Nat → Nat
  | _, [] => 0
  | [], _ :: _ => 0
  | r :: script, b :: buf =>
    match r.err with
    | some _ => 0
    | none => r.n + acceptedBytes script ((b :: buf).drop r.n)

/-! ## Byte-string comparison (src/server.go line 148)

The server compares the presented password with `st.password != passwd`,
Go's built-in string comparison.  `bytesEq` is that comparison on byte
lists; `scanSteps` counts how many byte comparisons its short-circuit
scan performs, the timing observable. -/

/-- Short-circuit byte-list equality, the semantics of Go `==` on
strings: equal lengths and equal bytes, scanning left to right and
stopping at the first mismatch. -/
def bytesEq : List Nat → List Nat → Bool
  | [], [] => true
  | a :: s, b :: t => decide (a = b) && bytesEq s t
  | _, _ => false

/-- Number of byte comparisons performed by the short-circuit scan over
two equal-length strings (the scan stops at the first mismatch). -/
def scanSteps : List Nat → List Nat → Nat
  | a :: s, b :: t => if a = b then 1 + scanSteps s t else 1
  | _, _ => 0

/-- Timing cost of the Go string comparison: a length check that rejects
unequal lengths without scanning, otherwise the short-circuit scan. -/
def stringEqCost (s t : List Nat) : Nat :=
  if s.length = t.length then scanSteps s t else 0

/-- Length of the common leading run of equal bytes. -/
def sharedLen : List Nat → List Nat → Nat
  | a :: s, b :: t => if a = b then 1 + sharedLen s t else 0
  | _, _ => 0

/-! ## Data model (src/main.go, src/unnamed/part_013)

Go's `*Proxy` objects are mutable-by-pointer; the model gives each one an
`id` standing for its address, and keeps the mutable `alive` flag outside
the record as the set `dead` of ids whose flag is false.  A hop's
`rrCount`/`priorityRR` counters are fields of the hop record; the chain
dialer threads updated hops explicitly. -/

/-- One upstream SOCKS5 endpoint (Go `Proxy`).  `id` models pointer
identity; the alive flag of a proxy is `¬ (p.id ∈ dead)`. -/
structure PProxy where
  name : String
  username : String
  password : String
  host : String
  port : Nat
  priority : Int
  id : Nat
deriving DecidableEq, Repr

/-- One position in a chain (Go `Hop`), counters included.  `fallbackId`
models the address of the proxy object freshly constructed by
`orderedProxies` when the hop has no pool but a bare host. -/
structure HopM where
  strategy : String
  proxies : List PProxy
  name : String
  username : String
  password : String
  host : String
  port : Nat
  rrCount : Nat
  priorityRR : List (Int × Nat)
  fallbackId : Nat
deriving DecidableEq, Repr

/-- Look up a priority-class counter (Go `h.priorityRR[pr]` with its
`ok` flag). -/
def lookupRR (m : List (Int × Nat)) (k : Int) : Option Nat :=
  (m.find? (fun e => e.1 = k)).map (fun e => e.2)

/-- Store a priority-class counter value through its pointer. -/
def setRR (m : List (Int × Nat)) (k : Int) (v : Nat) : List (Int × Nat) :=
  m.map (fun e => if e.1 = k then (e.1, v) else e)

/-- First-seen-order list of distinct priorities (Go builds `priorities`
while filling the `groups` map). -/
def dedupFirst : List Int → List Int
  | [] => []
  | x :: xs => x :: (dedupFirst xs).filter (fun y => y ≠ x)

/-- Insert into a descending-sorted list. -/
def insertDesc (x : Int) : List Int → List Int
  | [] => [x]
  | y :: ys => if y < x then x :: y :: ys else y :: insertDesc x ys

/-- Sort descending (Go `sort.Slice(priorities, i > j)`; the priorities
are distinct, so any correct sort yields the same list). -/
def sortDescInt : List Int → List Int
  | [] => []
  | x :: xs => insertDesc x (sortDescInt xs)

/-- Rotate a list left by `start` positions
(Go `append(grp[start:], grp[:start]...)`). -/
def rotateBy (l : List PProxy) (start : Nat) : List PProxy :=
  l.drop start ++ l.take start

/-- The uint32 modulus for rotation counters. -/
def u32 : Nat := 4294967296

/-- One priority group emitted by the priority strategy: the group for
priority `pr`, rotated by its counter when it has more than one member
and a counter is registered; returns the updated counter map.  The
rotation index is the counter value before the fetch-and-add. -/
def priorityStep (base : List PProxy) (rrm : List (Int × Nat)) (pr : Int) :
    List PProxy × List (Int × Nat) :=
  let grp := base.filter (fun p => p.priority = pr)
  if 1 < grp.length then
    match lookupRR rrm pr with
    | some c => (rotateBy grp (c % grp.length), setRR rrm pr ((c + 1) % u32))
    | none => (grp, rrm)
  else (grp, rrm)

/-- Concatenate the priority groups in the given priority order,
threading the counter map. -/
def priorityConcat (base : List PProxy) : List (Int × Nat) → List Int →
    List PProxy × List (Int × Nat)
  | rrm, [] => ([], rrm)
  | rrm, pr :: prs =>
    let step := priorityStep base rrm pr
    let rest := priorityConcat base step.2 prs
    (step.1 ++ rest.1, rest.2)

/-- ASCII lowering of one character (`strings.ToLower` restricted to the
ASCII strategy names the configuration accepts). -/
def lowerAscii (c : Char) : Char :=
  if 65 ≤ c.toNat ∧ c.toNat ≤ 90 then Char.ofNat (c.toNat + 32) else c

/-- `strings.ToLower` on a strategy string (ASCII). -/
def strToLower (s : String) : String := ⟨s.data.map lowerAscii⟩

/-- The alive-filter over a hop's pool (the first loop of
`orderedProxies`): the proxies whose alive flag is still true. -/
def liveOf (h : HopM) (dead : List Nat) : List PProxy :=
  h.proxies.filter (fun p => !(dead.contains p.id))

/-- Candidate pool of a hop (the first half of `orderedProxies`): the
live-filtered pool when one is configured, otherwise a freshly
constructed single proxy when a bare host is set. -/
def baseOf (h : HopM) (dead : List Nat) : List PProxy :=
  if 0 < h.proxies.length then liveOf h dead
  else if h.host ≠ "" then
    [⟨h.name, h.username, h.password, h.host, h.port, 0, h.fallbackId⟩]
  else []

/-- Proxy Selector (Go `Hop.orderedProxies`, src/chain.go lines 40-97).
Returns the attempt-ordered live proxies and the hop with its counters
updated.  `shuffle` abstracts `rand.Shuffle` for the random strategy;
`dead` is the set of proxy ids whose alive flag is false. -/
def orderedProxies (shuffle : List PProxy → List PProxy) (h : HopM)
    (dead : List Nat) : List PProxy × HopM :=
  if (baseOf h dead).length = 0 then ([], h)
  else
    match strToLower h.strategy with
    | "random" => (shuffle (baseOf h dead), h)
    | "priority" =>
      let prios := sortDescInt
        (dedupFirst ((baseOf h dead).map (fun p => p.priority)))
      let res := priorityConcat (baseOf h dead) h.priorityRR prios
      (res.1, { h with priorityRR := res.2 })
    | _ =>
      let start := h.rrCount % (baseOf h dead).length
      (rotateBy (baseOf h dead) start,
       { h with rrCount := (h.rrCount + 1) % u32 })

/-! The priority strategy as the specification words it, for claim C4:
group the live-filtered proxies by priority, concatenate groups in
descending priority order, rotate each group of size greater than one by
that group's counter, and increment exactly those counters once. -/

/-- Spec-worded priority ordering over the live-filtered list `live`:
rotation is performed for every group of size greater than one (the spec
assumes every priority class has a registered counter). -/
def prioritySpecOrder (live : List PProxy) (rrm : List (Int × Nat)) :
    List PProxy :=
  (sortDescInt (dedupFirst (live.map (fun p => p.priority)))).flatMap
    (fun pr =>
      let grp := live.filter (fun p => p.priority = pr)
      if 1 < grp.length then
        rotateBy grp (((lookupRR rrm pr).getD 0) % grp.length)
      else grp)

/-- Spec-worded counter update: every priority class whose live group
has more than one member is incremented exactly once; all other entries
are unchanged. -/
def prioritySpecCounters (live : List PProxy) (rrm : List (Int × Nat)) :
    List (Int × Nat) :=
  rrm.map (fun e =>
    if 1 < (live.filter (fun p => p.priority = e.1)).length then
      (e.1, (e.2 + 1) % u32)
    else e)

/-! ## Chain dialer (src/chain.go lines 99-165)

The network is abstracted by `env : Nat → Bool`: whether the SOCKS5
client handshake through the proxy with that id succeeds.  A tunnel
(`net.Conn`) is modelled as the list of proxy ids it passes through, so
the nil connection of Go is `[]` and each successful `connectProxy`
extends the conduit handed to it. -/

/-- Walk a combo in order (Go `connectThrough`).  `conn` is the conduit
built so far, `dead` the dead-id set.  Returns the resulting conduit or
the error naming the failing hop, the updated dead set, and the trace of
attempts as `(hop name, target host, target port)` triples.  On the
first failure the failing proxy's alive flag is stored false and the
walk stops. -/
def connectThroughAux (env : Nat → Bool) (finalHost : String) (finalPort : Nat) :
    List PProxy → List Nat → List Nat →
    Except String (List Nat) × List Nat × List (String × String × Nat)
  | [], conn, dead => (.ok conn, dead, [])
  | p :: rest, conn, dead =>
    let tgt : String × Nat :=
      match rest with
      | q :: _ => (q.host, q.port)
      | [] => (finalHost, finalPort)
    if env p.id then
      let res := connectThroughAux env finalHost finalPort rest (conn ++ [p.id]) dead
      (res.1, res.2.1, (p.name, tgt.1, tgt.2) :: res.2.2)
    else
      (.error ("hop " ++ p.name), p.id :: dead, [(p.name, tgt.1, tgt.2)])

/-- Go `connectThrough(ctx, combo, finalHost, finalPort)`: the walk
starts from the nil conduit. -/
def connectThrough (env : Nat → Bool) (combo : List PProxy)
    (finalHost : String) (finalPort : Nat) (dead : List Nat) :
    Except String (List Nat) × List Nat × List (String × String × Nat) :=
  connectThroughAux env finalHost finalPort combo [] dead

/-- Depth-first backtracking search (Go `dialChainRecursive`).  `chain`
is the remaining hops, `acc` the proxies selected so far (Go's `current`
prefix), `dead` the dead-id set.  Returns the conduit and the selected
combo on success or the last error, plus the remaining hops with their
counters updated and the final dead set.  The candidate loop
(`for _, p := range proxies`) is a fold that, until a branch succeeds,
tries each candidate in order, threading hop-counter and dead-set
updates across failed branches and keeping the last error; its start
state carries the `no valid proxy chain` error returned when no
candidate exists.  `fuel` bounds the recursion depth; every call made
with `chain.length ≤ fuel` never exhausts it. -/
def dialChainRecursive (shuffle : List PProxy → List PProxy) (env : Nat → Bool)
    (finalHost : String) (finalPort : Nat) :
    Nat → List HopM → List PProxy → List Nat →
    Except String (List Nat × List PProxy) × List HopM × List Nat
  | _, [], acc, dead =>
    let res := connectThrough env acc finalHost finalPort dead
    (match res.1 with
     | .ok conn => .ok (conn, acc)
     | .error e => .error e, [], res.2.1)
  | 0, hop :: rest, _, dead => (.error "fuel", hop :: rest, dead)
  | fuel + 1, hop :: rest, acc, dead =>
    let sel := orderedProxies shuffle hop dead
    let res := sel.1.foldl
      (fun st p =>
        match st with
        | (.ok r, rest2, dead2) => (.ok r, rest2, dead2)
        | (.error _, rest2, dead2) =>
          dialChainRecursive shuffle env finalHost finalPort fuel
            rest2 (acc ++ [p]) dead2)
      (.error "no valid proxy chain", rest, dead)
    (res.1, sel.2 :: res.2.1, res.2.2)

/-- Success-combo memo of Go `cachedChain`. -/
structure CachedChain where
  combo : List PProxy
  lastUsed : Nat
deriving DecidableEq, Repr

/-- Per-user state (Go `ChainState`).  `id` models object identity;
`refs` and the lock are concurrency artifacts not needed by the modelled
operations. -/
structure ChainStateM where
  id : Nat
  chain : List HopM
  password : List Nat
  cache : Option CachedChain
deriving DecidableEq, Repr

/-- Go `dialChain(ctx, state, finalHost, finalPort)` at time `now`:
fast path through the cached combo when one is present (on success only
`lastUsed` is refreshed; on failure the cache is discarded and the slow
path runs); slow path is the backtracking search, whose success installs
a copy of the selected combo as the new cache with `lastUsed = now`. -/
def dialChain (shuffle : List PProxy → List PProxy) (env : Nat → Bool)
    (now : Nat) (st : ChainStateM) (finalHost : String) (finalPort : Nat)
    (dead : List Nat) :
    Except String (List Nat) × ChainStateM × List Nat :=
  let slow : ChainStateM → List Nat →
      Except String (List Nat) × ChainStateM × List Nat := fun st dead =>
    let r := dialChainRecursive shuffle env finalHost finalPort
      st.chain.length st.chain [] dead
    match r.1 with
    | .ok res =>
      (.ok res.1, { st with chain := r.2.1, cache := some ⟨res.2, now⟩ }, r.2.2)
    | .error e => (.error e, { st with chain := r.2.1 }, r.2.2)
  match st.cache with
  | some c =>
    let ct := connectThrough env c.combo finalHost finalPort dead
    match ct.1 with
    | .ok conn => (.ok conn, { st with cache := some ⟨c.combo, now⟩ }, ct.2.1)
    | .error _ => slow { st with cache := none } ct.2.1
  | none => slow st dead

/-! ## Snapshot construction (src/unnamed/part_002, `buildUserChains`) -/

/-- One configured user entry (Go `UserChain`); usernames and passwords
are byte strings. -/
structure UserChainM where
  username : List Nat
  password : List Nat
  chain : List HopM
deriving DecidableEq, Repr

/-- Lookup in the username → ChainState table (Go map indexing). -/
def lookupU (m : List (List Nat × ChainStateM)) (k : List Nat) :
    Option ChainStateM :=
  (m.find? (fun e => e.1 = k)).map (fun e => e.2)

/-- Loop body of Go `buildUserChains`: insert each entry, failing on a
username already present.  `nextId` supplies the fresh object identity
of each `&ChainState` allocation. -/
def buildUserChainsAux (nextId : Nat) (acc : List (List Nat × ChainStateM)) :
    List UserChainM → Except String (List (List Nat × ChainStateM))
  | [] => .ok acc
  | uc :: rest =>
    if (lookupU acc uc.username).isSome then .error "duplicate username"
    else buildUserChainsAux (nextId + 1)
      (acc ++ [(uc.username, ⟨nextId, uc.chain, uc.password, none⟩)]) rest

/-- Go `buildUserChains(chains)`: an error on any duplicate username,
otherwise the table binding each username to a fresh ChainState carrying
that user's chain and password. -/
def buildUserChains (baseId : Nat) (ucs : List UserChainM) :
    Except String (List (List Nat × ChainStateM)) :=
  buildUserChainsAux baseId [] ucs

/-! ## Hot reload (src/reload.go lines 41-63)

`startConfigReload` merges the freshly built table into the published one
with `reflect.DeepEqual(old.chain, st.chain) && old.password ==
st.password`.  `reflect.DeepEqual` dereferences the `*Hop` and `*Proxy`
pointers and compares every field, including the unexported mutable ones:
`rrCount`, the `priorityRR` counter values, and each proxy's `alive`
flag value. -/

/-- DeepEqual on one proxy: every Go-visible field, with the alive flag
read from the dead set at comparison time (`id` is a model artifact, not
a Go field, and is not compared). -/
def deepEqualProxy (dead : List Nat) (p q : PProxy) : Bool :=
  p.name = q.name && p.username = q.username && p.password = q.password &&
  p.host = q.host && p.port = q.port && p.priority = q.priority &&
  (dead.contains p.id) = (dead.contains q.id)

/-- DeepEqual on the `priorityRR` maps: equal key sets with equal
counter values. -/
def rrMapEquiv (m1 m2 : List (Int × Nat)) : Bool :=
  m1.all (fun e => lookupRR m2 e.1 = some e.2) &&
  m2.all (fun e => lookupRR m1 e.1 = some e.2)

/-- DeepEqual on one hop, counters included. -/
def deepEqualHop (dead : List Nat) (h1 h2 : HopM) : Bool :=
  h1.strategy = h2.strategy && h1.name = h2.name &&
  h1.username = h2.username && h1.password = h2.password &&
  h1.host = h2.host && h1.port = h2.port &&
  h1.rrCount = h2.rrCount && rrMapEquiv h1.priorityRR h2.priorityRR &&
  h1.proxies.length = h2.proxies.length &&
  (List.zip h1.proxies h2.proxies).all (fun pq => deepEqualProxy dead pq.1 pq.2)

/-- Go `reflect.DeepEqual(old.chain, st.chain)` on `[]*Hop`. -/
def deepEqualChain (dead : List Nat) (c1 c2 : List HopM) : Bool :=
  c1.length = c2.length &&
  (List.zip c1 c2).all (fun hh => deepEqualHop dead hh.1 hh.2)

/-- The reload merge (loop body of `startConfigReload`): for each new
entry keep the prior ChainState when its chain deep-equals and its
password equals the prior one, otherwise install the new state and
schedule the displaced one for retirement; every username absent from
the new table is also retired.  Returns the published table and the
retired states. -/
def reloadMerge (dead : List Nat)
    (oldC newC : List (List Nat × ChainStateM)) :
    List (List Nat × ChainStateM) × List ChainStateM :=
  let keep : List Nat × ChainStateM → Option ChainStateM := fun e =>
    match lookupU oldC e.1 with
    | some old =>
      if deepEqualChain dead old.chain e.2.chain && old.password = e.2.password
      then some old else none
    | none => none
  let updated := newC.map (fun e =>
    match keep e with
    | some old => (e.1, old)
    | none => e)
  let retired1 := newC.filterMap (fun e =>
    match lookupU oldC e.1 with
    | some old => if (keep e).isSome then none else some old
    | none => none)
  let retired2 := oldC.filterMap (fun e =>
    if (lookupU newC e.1).isSome then none else some e.2)
  (updated, retired1 ++ retired2)

/-! ## Server session (src/server.go, `handleConn`)

The inbound byte stream is a finite list (running out models EOF or a
read timeout); every write is assumed delivered.  The trace records each
message the server writes: the method-selection message `05 mm`, the
auth sub-negotiation status `01 ss`, and the SOCKS5 REP replies
`05 rep 00 ...` (success or error).  Upstream establishment is abstracted
by `dialOk`. -/

/-- One message written by the server session. -/
inductive Msg where
  | methodSel (m : Nat)
  | authRep (s : Nat)
  | rep (code : Nat)
deriving DecidableEq, Repr

/-- Number of SOCKS5 REP replies in a trace (the success reply and the
specific error replies of spec section 6). -/
def repCount (ms : List Msg) : Nat :=
  (ms.filter (fun m => match m with | .rep _ => true | _ => false)).length

/-- Which dial the session performs (src/server.go line 231):
`state != nil && len(state.chain) > 0` selects the chain dialer,
otherwise the direct TCP dial. -/
def dialIsChain (st : Option ChainStateM) : Bool :=
  match st with
  | some s => 0 < s.chain.length
  | none => false

/-- Final step of the request phase: read the 2-byte port (a short read
closes silently) and dial; REP 0x00 reports success, REP 0x04 any
upstream failure.  The second component records whether the chain dialer
(vs the direct dial) was chosen, `none` when no dial was reached. -/
def dialStep (st : Option ChainStateM) (dialOk : Bool) (rest : List Nat) :
    List Msg × Option Bool :=
  match rest with
  | _ph :: _pl :: _ =>
    if dialOk then ([.rep 0], some (dialIsChain st))
    else ([.rep 4], some (dialIsChain st))
  | _ => ([], none)

/-- Address-parsing tail of the request phase: after the 4-byte header,
read the address per ATYP, then the port and dial.  Read failures here
close silently; an unknown ATYP replies REP 0x08. -/
def requestAddrPhase (st : Option ChainStateM) (dialOk : Bool)
    (atyp : Nat) (input : List Nat) : List Msg × Option Bool :=
  match atyp with
  | 1 =>
    if 4 ≤ input.length then dialStep st dialOk (input.drop 4) else ([], none)
  | 3 =>
    match input with
    | dlen :: rest =>
      if dlen ≤ rest.length then dialStep st dialOk (rest.drop dlen)
      else ([], none)
    | [] => ([], none)
  | 4 =>
    if 16 ≤ input.length then dialStep st dialOk (input.drop 16) else ([], none)
  | _ => ([.rep 8], none)

/-- Request phase (src/server.go lines 165-247): read the 4-byte header
`VER CMD RSV ATYP`.  A short header read replies REP 0x01 (the quirk the
spec's design notes call out); VER ≠ 5 closes silently; CMD ≠ 1 replies
REP 0x07; then the address tail runs. -/
def requestPhase (st : Option ChainStateM) (dialOk : Bool)
    (input : List Nat) : List Msg × Option Bool :=
  match input with
  | ver :: cmd :: _rsv :: atyp :: rest =>
    if ver ≠ 5 then ([], none)
    else if cmd ≠ 1 then ([.rep 7], none)
    else requestAddrPhase st dialOk atyp rest
  | _ => ([.rep 1], none)

/-- Credential check at the end of the sub-negotiation (src/server.go
lines 146-163): look the username up in the snapshot and compare the
password; failure writes status `01 01`, success writes `01 00` and
continues into the request phase with the matched ChainState bound. -/
def authLookup (chains : List (List Nat × ChainStateM)) (dialOk : Bool)
    (uname passwd restAfter : List Nat) : List Msg × Option Bool :=
  match lookupU chains uname with
  | none => ([.authRep 1], none)
  | some stt =>
    if bytesEq stt.password passwd then
      let req := requestPhase (some stt) dialOk restAfter
      (.authRep 0 :: req.1, req.2)
    else ([.authRep 1], none)

/-- Username/password sub-negotiation (src/server.go lines 85-163,
RFC 1929 with VER 0x01).  Any framing failure writes the status `01 01`
and closes; otherwise the parsed credentials go to `authLookup`. -/
def authPhase (chains : List (List Nat × ChainStateM)) (dialOk : Bool)
    (input : List Nat) : List Msg × Option Bool :=
  match input with
  | aver :: ulen :: rest =>
    if aver ≠ 1 then ([.authRep 1], none)
    else if ulen = 0 || 255 < ulen then ([.authRep 1], none)
    else if rest.length < ulen + 1 then ([.authRep 1], none)
    else
      let uname := rest.take ulen
      let plen := (rest.drop ulen).headD 0
      let rest2 := rest.drop (ulen + 1)
      if plen = 0 || 255 < plen then ([.authRep 1], none)
      else if rest2.length < plen then ([.authRep 1], none)
      else authLookup chains dialOk uname (rest2.take plen) (rest2.drop plen)
  | _ => ([.authRep 1], none)

/-- Server session (Go `handleConn`): greeting and method selection,
then the auth phase when user/password was selected, then the request
phase.  Returns the trace of written messages and which dial ran. -/
def handleConnFull (chains : List (List Nat × ChainStateM))
    (input : List Nat) (dialOk : Bool) : List Msg × Option Bool :=
  match input with
  | ver :: nmethods :: rest =>
    if ver ≠ 5 then ([.methodSel 255], none)
    else if nmethods = 0 || 255 < nmethods then ([.methodSel 255], none)
    else if rest.length < nmethods then ([.methodSel 255], none)
    else
      let methods := rest.take nmethods
      let rest2 := rest.drop nmethods
      let want := if chains.length = 0 then 0 else 2
      if methods.contains want then
        if want = 2 then
          let au := authPhase chains dialOk rest2
          (.methodSel 2 :: au.1, au.2)
        else
          let req := requestPhase none dialOk rest2
          (.methodSel 0 :: req.1, req.2)
      else ([.methodSel 255], none)
  | _ => ([.methodSel 255], none)

/-- The message trace of one server session. -/
def handleConn (chains : List (List Nat × ChainStateM))
    (input : List Nat) (dialOk : Bool) : List Msg :=
  (handleConnFull chains input dialOk).1

/-! ## Upstream client (src/chain.go lines 167-287, `connectProxy`)

The handshake that `connectProxy` performs over an established conduit,
as a parser of the upstream server's byte stream.  `hopUser`/`hopPass`
are the hop's credentials; the offered methods are `{0x00}` without
credentials and `{0x00, 0x02}` with them. -/

/-- Methods offered in the client greeting (`wantAuth` of Go
`connectProxy`). -/
def methodsOffered (hopUser hopPass : List Nat) : List Nat :=
  if hopUser.length ≠ 0 || hopPass.length ≠ 0 then [0, 2] else [0]

/-- CONNECT-reply tail: 4-byte prefix, REP must be 0, then the bound
address per ATYP plus the 2-byte port are consumed. -/
def connectReplyPhase (input : List Nat) : Except String Unit :=
  match input with
  | _r0 :: r1 :: _r2 :: r3 :: rest =>
    if r1 ≠ 0 then .error "connect failed"
    else
      let skip : Except String Nat :=
        match r3 with
        | 1 => .ok 4
        | 3 =>
          match rest with
          | d :: _ => .ok (d + 1)
          | [] => .error "read"
        | 4 => .ok 16
        | _ => .error "bad atyp"
      match skip with
      | .error e => .error e
      | .ok sk => if sk + 2 ≤ rest.length then .ok () else .error "read"
  | _ => .error "read"

/-- Sub-negotiation after the upstream selected method 0x02: the code
sends `01 ULEN UNAME PLEN PASSWD` with the hop's credentials (failing
first when either exceeds 255 bytes) and accepts iff the second reply
byte is 0. -/
def authReplyPhase (hopUser hopPass : List Nat) (input : List Nat) :
    Except String (List Nat) :=
  if 255 < hopUser.length || 255 < hopPass.length then
    .error "username/password too long"
  else
    match input with
    | _a0 :: a1 :: rest =>
      if a1 ≠ 0 then .error "auth failed" else .ok rest
    | _ => .error "read"

/-- Go `connectProxy` from the method-selection reply onward: reject a
first byte ≠ 0x05; on method 0x02 run the credential sub-negotiation
(whether or not 0x02 was offered); any other non-zero method is
rejected; then the CONNECT reply is parsed. -/
def connectProxy (hopUser hopPass : List Nat) (input : List Nat) :
    Except String Unit :=
  match input with
  | b0 :: mthd :: rest =>
    if b0 ≠ 5 then .error "bad method response"
    else if mthd = 2 then
      match authReplyPhase hopUser hopPass rest with
      | .error e => .error e
      | .ok rest2 => connectReplyPhase rest2
    else if mthd ≠ 0 then .error "bad method response"
    else connectReplyPhase rest
  | _ => .error "read"

/-! ## Statement helpers -/

/-- The next-hop target at index `i` of a combo: the following proxy's
host and port, or the final destination at the last index. -/
def nextTarget (combo : List PProxy) (finalHost : String) (finalPort : Nat)
    (i : Nat) : String × Nat :=
  match combo.get? (i + 1) with
  | some q => (q.host, q.port)
  | none => (finalHost, finalPort)

/-- Two hops agree on every immutable field (only the rotation counters
may differ); `orderedProxies` preserves this shape. -/
def hopShapeEq (a b : HopM) : Bool :=
  a.strategy = b.strategy && a.proxies = b.proxies && a.name = b.name &&
  a.username = b.username && a.password = b.password && a.host = b.host &&
  a.port = b.port && a.fallbackId = b.fallbackId

/-- Pairwise `hopShapeEq` over two chains of the same length. -/
def chainShapeEq : List HopM → List HopM → Bool
  | [], [] => true
  | a :: l1, b :: l2 => hopShapeEq a b && chainShapeEq l1 l2
  | _, _ => false

/-- The dead set `dead2` extends `dead` only by ids whose handshake the
environment rejects. -/
def DeadGrows (env : Nat → Bool) (dead dead2 : List Nat) : Prop :=
  ∃ l, dead2 = l ++ dead ∧ ∀ x ∈ l, env x = false

/-- Success facts of the backtracking search relative to its call
arguments: a returned combo extends `acc` by one proxy per hop of
`chain`, every member is accepted by the environment, and each appended
entry was drawn from a selector run over a hop of the same shape as the
corresponding chain hop, at a dead set extending the entry one. -/
def DialOkProps (sh : List PProxy → List PProxy) (env : Nat → Bool)
    (chain : List HopM) (acc : List PProxy) (dead : List Nat)
    (r : Except String (List Nat × List PProxy)) : Prop :=
  ∀ conn combo, r = .ok (conn, combo) →
    combo.length = acc.length + chain.length
    ∧ combo.take acc.length = acc
    ∧ (∀ q ∈ combo, env q.id = true)
    ∧ (∀ k, k < chain.length → ∃ p hk h2 d2,
        combo.get? (acc.length + k) = some p
        ∧ chain.get? k = some hk
        ∧ hopShapeEq h2 hk = true
        ∧ p ∈ (orderedProxies sh h2 d2).1
        ∧ (∀ x ∈ dead, x ∈ d2))

/-! ## Concrete instances

Instances used by witnesses and counterexamples: the pool of
`TestPriorityStrategy` (src/proxy.go), a two-hop chain with a failover
pool, and a single-proxy chain exercised by one dial before a reload. -/

/-- Proxy `p1` of `TestPriorityStrategy`: priority 1. -/
def tp1 : PProxy := ⟨"p1", "", "", "h1", 1, 1, 1⟩

/-- Proxy `p2` of `TestPriorityStrategy`: priority 1. -/
def tp2 : PProxy := ⟨"p2", "", "", "h2", 2, 1, 2⟩

/-- Proxy `p3` of `TestPriorityStrategy`: priority 2. -/
def tp3 : PProxy := ⟨"p3", "", "", "h3", 3, 2, 3⟩

/-- The priority-strategy hop of `TestPriorityStrategy` after
`initProxies`: both priority classes have a zeroed counter. -/
def tHop : HopM := ⟨"priority", [tp1, tp2, tp3], "", "", "", "", 0, 0,
  [(1, 0), (2, 0)], 99⟩

/-- A single-proxy hop with the default (round-robin) strategy, as
loaded from configuration. -/
def rrHop : HopM := ⟨"", [⟨"X", "", "", "hx", 9, 0, 1⟩], "", "", "", "",
  0, 0, [], 90⟩

/-- A freshly loaded ChainState for user `u` over `rrHop`
(object identity 100). -/
def rrState : ChainStateM := ⟨100, [rrHop], [9], none⟩

/-- The same configuration rebuilt by a reload (a distinct allocation,
object identity 200, zeroed counters). -/
def rrStateReloaded : ChainStateM := ⟨200, [rrHop], [9], none⟩

/-- `rrState` after it has carried one dial: the state component of
`dialChain` at time 5 with every upstream accepting. -/
def rrStateAfterTraffic : ChainStateM :=
  (dialChain id (fun _ => true) 5 rrState "t" 80 []).2.1

/-- A two-hop chain: hop 1 is the single proxy `A` (id 1), hop 2 a
round-robin pool of `B` (id 2) and `C` (id 3). -/
def failoverChain : ChainStateM := ⟨1,
  [⟨"", [⟨"A", "", "", "ha", 1, 0, 1⟩], "", "", "", "", 0, 0, [], 91⟩,
   ⟨"", [⟨"B", "", "", "hb", 2, 0, 2⟩, ⟨"C", "", "", "hc", 3, 0, 3⟩],
    "", "", "", "", 0, 0, [], 92⟩], [], none⟩

/-! # Theorems -/

/-! ## Shared helper lemmas -/

/-- The modelled Go string comparison decides equality. -/
theorem bytesEq_eq_decide (s t : List Nat) : bytesEq s t = decide (s = t) := by
  induction s generalizing t with
  | nil => cases t <;> simp [bytesEq]
  | cons a s ih =>
    cases t with
    | nil => simp [bytesEq]
    | cons b t => simp [bytesEq, ih]

/-! ## C10: writeFull -/

/-- C10: `writeFull(w, buf)` returns nil only when, across short writes,
the writer acknowledged every byte of `buf` (under accurate counts the
acknowledged total equals the buffer length); and it returns the first
write error immediately: the erroring call is the last submission, every
earlier consumed response was error-free, and nothing is submitted
afterwards. -/
theorem writeFull_exact (script : List WriteResp) (buf : List Nat) :
    (accurateRun script buf = true → (writeFull script buf).2 = some none →
      acceptedBytes script buf = buf.length)
    ∧ (∀ e, (writeFull script buf).2 = some (some e) →
      ∃ k r, script.get? k = some r ∧ r.err = some e ∧
        (∀ j, j < k → ∃ rj, script.get? j = some rj ∧ rj.err = none) ∧
        (writeFull script buf).1.length = k + 1) := by
  induction script generalizing buf with
  | nil =>
    refine ⟨?_, ?_⟩
    · intro _ hok
      cases buf with
      | nil => simp [acceptedBytes]
      | cons b bs => simp [writeFull] at hok
    · intro e he
      cases buf with
      | nil => simp [writeFull] at he
      | cons b bs => simp [writeFull] at he
  | cons r script ih =>
    refine ⟨?_, ?_⟩
    · intro hacc hok
      cases buf with
      | nil => simp [acceptedBytes]
      | cons b bs =>
        cases herr : r.err with
        | some e => simp [writeFull, herr] at hok
        | none =>
          simp only [writeFull, herr] at hok
          simp only [accurateRun, herr, Bool.and_eq_true, decide_eq_true_eq] at hacc
          have h1 := (ih ((b :: bs).drop r.n)).1 hacc.2 hok
          simp only [acceptedBytes, herr, h1, List.length_drop]
          have h2 := hacc.1
          simp only [List.length_cons] at h2 ⊢
          omega
    · intro e he
      cases buf with
      | nil => simp [writeFull] at he
      | cons b bs =>
        cases herr : r.err with
        | some e0 =>
          simp only [writeFull, herr, Option.some.injEq] at he
          refine ⟨0, r, rfl, ?_, ?_, ?_⟩
          · rw [herr, he]
          · intro j hj; omega
          · simp [writeFull, herr]
        | none =>
          simp only [writeFull, herr] at he
          obtain ⟨k, rr, hget, herr2, hprev, hlen⟩ := (ih ((b :: bs).drop r.n)).2 e he
          refine ⟨k + 1, rr, ?_, herr2, ?_, ?_⟩
          · simpa using hget
          · intro j hj
            cases j with
            | zero => exact ⟨r, rfl, herr⟩
            | succ j2 =>
              have := hprev j2 (by omega)
              simpa using this
          · simp only [writeFull, herr, List.length_cons]
            omega

/-- C10 witness: a writer that accepts two then one byte transmits the
whole three-byte buffer. -/
theorem writeFull_exact_witness :
    acceptedBytes [⟨2, none⟩, ⟨1, none⟩] [9, 9, 9] = 3 :=
  (writeFull_exact [⟨2, none⟩, ⟨1, none⟩] [9, 9, 9]).1 (by decide) (by decide)

/-! ## C2: password comparison timing -/

/-- C2 counterexample: the server's password comparison
(`st.password != passwd`, modelled by `bytesEq` and its scan-cost
`stringEqCost`) is not constant time: with stored password `aa`, the
wrong guesses `ba` and `ab` have equal length but take a different
number of byte comparisons depending on the position of the first
differing byte. -/
theorem password_compare_timing_cex :
    bytesEq [97, 97] [98, 97] = false ∧ bytesEq [97, 97] [97, 98] = false ∧
    ([98, 97] : List Nat).length = ([97, 98] : List Nat).length ∧
    stringEqCost [97, 97] [98, 97] = 1 ∧ stringEqCost [97, 97] [97, 98] = 2 ∧
    stringEqCost [97, 97] [98, 97] ≠ stringEqCost [97, 97] [97, 98] := by
  decide

/-- C2 amended: the comparison the server performs is a short-circuit
byte scan, so for equal-length unequal passwords its cost is the length
of the matching prefix plus one: the timing depends on how much of the
password matches, and is not constant time. -/
theorem stringEqCost_reveals_first_diff (s t : List Nat)
    (hlen : s.length = t.length) (hne : bytesEq s t = false) :
    stringEqCost s t = sharedLen s t + 1 := by
  induction s generalizing t with
  | nil =>
    cases t with
    | nil => simp [bytesEq] at hne
    | cons b t => simp at hlen
  | cons a s ih =>
    cases t with
    | nil => simp at hlen
    | cons b t =>
      simp only [List.length_cons, Nat.add_right_cancel_iff] at hlen
      by_cases hab : a = b
      · subst hab
        simp only [bytesEq, decide_True, Bool.true_and] at hne
        have h1 := ih t hlen hne
        simp only [stringEqCost, hlen, if_true, List.length_cons] at h1 ⊢
        simp [scanSteps, sharedLen]
        omega
      · simp only [stringEqCost, hlen, List.length_cons, if_true]
        simp [scanSteps, sharedLen, hab]

/-- C2 amended witness: at stored `aa` and guess `ab` the scan cost is
the shared-prefix length plus one. -/
theorem stringEqCost_reveals_first_diff_witness :
    stringEqCost [97, 97] [97, 98] = sharedLen [97, 97] [97, 98] + 1 :=
  stringEqCost_reveals_first_diff [97, 97] [97, 98] (by decide) (by decide)

/-! ## C8: buildUserChains -/

theorem lookupU_cons (e : List Nat × ChainStateM)
    (a : List (List Nat × ChainStateM)) (k : List Nat) :
    lookupU (e :: a) k = if e.1 = k then some e.2 else lookupU a k := by
  by_cases h : e.1 = k <;> simp [lookupU, List.find?_cons, h]

theorem lookupU_append (a b : List (List Nat × ChainStateM)) (k : List Nat) :
    lookupU (a ++ b) k =
      match lookupU a k with
      | some v => some v
      | none => lookupU b k := by
  induction a with
  | nil => simp [lookupU]
  | cons e a ih =>
    by_cases h : e.1 = k <;> simp [lookupU_cons, h, ih]

theorem lookupU_isSome_iff (m : List (List Nat × ChainStateM)) (k : List Nat) :
    (lookupU m k).isSome = true ↔ k ∈ m.map Prod.fst := by
  induction m with
  | nil => simp [lookupU]
  | cons e a ih =>
    by_cases h : e.1 = k <;> simp [lookupU_cons, h, ih]
    exact fun hk => (h hk.symm).elim

/-- Invariant of the `buildUserChains` loop: starting from a table `acc`
with distinct keys, the loop succeeds exactly when the accumulated keys
plus the incoming usernames are all distinct, preserves existing
bindings, and binds each incoming username to a state carrying its chain
and password. -/
theorem buildUserChainsAux_spec :
    ∀ (ucs : List UserChainM) (nextId : Nat)
      (acc : List (List Nat × ChainStateM)),
    (acc.map Prod.fst).Nodup →
    ((∃ m, buildUserChainsAux nextId acc ucs = .ok m) ↔
      (acc.map Prod.fst ++ ucs.map (fun u => u.username)).Nodup)
    ∧ (∀ m, buildUserChainsAux nextId acc ucs = .ok m →
        m.map Prod.fst = acc.map Prod.fst ++ ucs.map (fun u => u.username)
        ∧ (∀ k v, lookupU acc k = some v → lookupU m k = some v)
        ∧ (∀ uc ∈ ucs, ∃ cs, lookupU m uc.username = some cs ∧
            cs.chain = uc.chain ∧ cs.password = uc.password)) := by
  intro ucs
  induction ucs with
  | nil =>
    intro nextId acc hacc
    refine ⟨?_, ?_⟩
    · simpa [buildUserChainsAux] using hacc
    · intro m hm
      simp only [buildUserChainsAux, Except.ok.injEq] at hm
      subst hm
      simp
  | cons uc rest ih =>
    intro nextId acc hacc
    by_cases hmem : (lookupU acc uc.username).isSome
    · have hin : uc.username ∈ acc.map Prod.fst := (lookupU_isSome_iff _ _).1 hmem
      refine ⟨?_, ?_⟩
      · simp only [buildUserChainsAux, hmem, if_true]
        constructor
        · rintro ⟨m, hm⟩; cases hm
        · intro hnd
          rw [List.nodup_append] at hnd
          exact (hnd.2.2 hin (by simp)).elim
      · intro m hm
        simp only [buildUserChainsAux, hmem, if_true] at hm
        cases hm
    · have hnotin : uc.username ∉ acc.map Prod.fst := fun h =>
        hmem ((lookupU_isSome_iff _ _).2 h)
      have hstep : buildUserChainsAux nextId acc (uc :: rest) =
          buildUserChainsAux (nextId + 1)
            (acc ++ [(uc.username, ⟨nextId, uc.chain, uc.password, none⟩)])
            rest := by
        simp [buildUserChainsAux, hmem]
      have hacc2 : ((acc ++
          [(uc.username, (⟨nextId, uc.chain, uc.password, none⟩ :
            ChainStateM))]).map Prod.fst).Nodup := by
        simp only [List.map_append, List.map_cons, List.map_nil]
        rw [List.nodup_append]
        refine ⟨hacc, List.nodup_singleton _, ?_⟩
        intro a ha hb
        simp only [List.mem_singleton] at hb
        exact hnotin (hb ▸ ha)
      have hrec := ih (nextId + 1)
        (acc ++ [(uc.username, ⟨nextId, uc.chain, uc.password, none⟩)]) hacc2
      refine ⟨?_, ?_⟩
      · rw [hstep, hrec.1]
        simp [List.append_assoc]
      · intro m hm
        rw [hstep] at hm
        obtain ⟨hmap, hpres, hmemb⟩ := hrec.2 m hm
        refine ⟨?_, ?_, ?_⟩
        · rw [hmap]; simp [List.append_assoc]
        · intro k v hk
          apply hpres
          rw [lookupU_append, hk]
        · intro uc2 huc2
          rcases List.mem_cons.1 huc2 with heq | hrest
          · subst heq
            refine ⟨⟨nextId, uc2.chain, uc2.password, none⟩, ?_, rfl, rfl⟩
            apply hpres
            rw [lookupU_append]
            have : lookupU acc uc2.username = none :=
              Option.not_isSome_iff_eq_none.1 hmem
            rw [this]
            simp [lookupU_cons]
          · exact hmemb uc2 hrest

/-- C8: `buildUserChains` fails exactly on a duplicate username, and on
success publishes a table whose keys are the (distinct) usernames, each
bound to a ChainState carrying that user's chain and password. -/
theorem buildUserChains_unique_users (baseId : Nat) (ucs : List UserChainM) :
    ((∃ m, buildUserChains baseId ucs = .ok m) ↔
      (ucs.map (fun u => u.username)).Nodup)
    ∧ (∀ m, buildUserChains baseId ucs = .ok m →
        m.map Prod.fst = ucs.map (fun u => u.username)
        ∧ (m.map Prod.fst).Nodup
        ∧ ∀ uc ∈ ucs, ∃ cs, lookupU m uc.username = some cs ∧
            cs.chain = uc.chain ∧ cs.password = uc.password) := by
  have h := buildUserChainsAux_spec ucs baseId [] (by simp)
  refine ⟨by simpa [buildUserChains] using h.1, ?_⟩
  intro m hm
  obtain ⟨hmap, _, hmemb⟩ := h.2 m hm
  have hnd : (ucs.map (fun u => u.username)).Nodup := by
    have := h.1.1 ⟨m, hm⟩
    simpa using this
  refine ⟨by simpa using hmap, ?_, hmemb⟩
  rw [show m.map Prod.fst = ucs.map (fun u => u.username) by simpa using hmap]
  exact hnd

/-- C8 witness: a two-user table binds each username to its own chain
and password. -/
theorem buildUserChains_unique_users_witness :
    ∃ cs, lookupU [([117], (⟨0, [], [112], none⟩ : ChainStateM)),
        ([118], (⟨1, [], [113], none⟩ : ChainStateM))] [117] = some cs ∧
      cs.chain = [] ∧ cs.password = [112] :=
  ((buildUserChains_unique_users 0
      [⟨[117], [112], []⟩, ⟨[118], [113], []⟩]).2 _ (by rfl)).2.2
    ⟨[117], [112], []⟩ (by simp)

/-! ## C5: connectProxy method selection -/

/-- C5 counterexample: for a hop with no credentials only method 0x00 is
offered, yet when the upstream's method-selection reply picks 0x02 the
handshake does not fail: the client runs the username/password
sub-negotiation with empty credentials and completes the CONNECT
exchange successfully. -/
theorem connectProxy_accepts_unoffered_method :
    methodsOffered [] [] = [0] ∧
    (2 ∈ methodsOffered [] []) = False ∧
    connectProxy [] [] [5, 2, 1, 0, 5, 0, 0, 1, 9, 9, 9, 9, 0, 80] =
      .ok () := by
  refine ⟨by decide, by simp [methodsOffered], by rfl⟩

/-- C5 amended: `connectProxy` fails whenever the method-selection reply
has first byte ≠ 0x05 or selects a method outside the constant set
0x00, 0x02; but a reply selecting 0x02 — offered or not — proceeds into
the username/password sub-negotiation with the hop's (possibly empty)
credentials rather than failing. -/
theorem connectProxy_method_check (u p : List Nat) (b0 m : Nat)
    (rest : List Nat) :
    (b0 ≠ 5 → connectProxy u p (b0 :: m :: rest) =
      .error "bad method response")
    ∧ (b0 = 5 → m ≠ 0 → m ≠ 2 → connectProxy u p (b0 :: m :: rest) =
      .error "bad method response")
    ∧ (b0 = 5 → m = 2 → connectProxy u p (b0 :: m :: rest) =
      match authReplyPhase u p rest with
      | .error e => .error e
      | .ok rest2 => connectReplyPhase rest2) := by
  refine ⟨?_, ?_, ?_⟩
  · intro hb
    simp [connectProxy, hb]
  · intro hb hm0 hm2
    subst hb
    simp [connectProxy, hm0, hm2]
  · intro hb hm
    subst hb; subst hm
    simp [connectProxy]

/-- C5 amended witness: a reply selecting method 0x03 is rejected. -/
theorem connectProxy_method_check_witness :
    connectProxy [] [] [5, 3] = .error "bad method response" :=
  (connectProxy_method_check [] [] 5 3 []).2.1 rfl (by decide) (by decide)

/-! ## C7: connectThrough -/

/-- Each attempt in the walk trace targets the next combo entry's host
and port, or the final destination at the last index. -/
theorem connectThroughAux_trace (env : Nat → Bool) (fh : String) (fp : Nat) :
    ∀ (combo : List PProxy) (conn dead : List Nat) (i : Nat) (p : PProxy),
    combo.get? i = some p →
    i < (connectThroughAux env fh fp combo conn dead).2.2.length →
    (connectThroughAux env fh fp combo conn dead).2.2.get? i =
      some (p.name, (nextTarget combo fh fp i).1,
        (nextTarget combo fh fp i).2) := by
  intro combo
  induction combo with
  | nil => intro conn dead i p hget; simp at hget
  | cons p0 rest ih =>
    intro conn dead i p hget hlt
    by_cases he : env p0.id
    · cases i with
      | zero =>
        simp only [List.get?_cons_zero, Option.some.injEq] at hget
        subst hget
        cases rest with
        | nil => simp [connectThroughAux, he, nextTarget]
        | cons q qs => simp [connectThroughAux, he, nextTarget]
      | succ i2 =>
        simp only [List.get?_cons_succ] at hget
        simp only [connectThroughAux, he, if_true, List.length_cons,
          Nat.succ_lt_succ_iff] at hlt
        have h2 := ih (conn ++ [p0.id]) dead i2 p hget hlt
        simp only [connectThroughAux, he, if_true, List.get?_cons_succ]
        rw [h2]
        simp [nextTarget]
    · simp only [connectThroughAux, he, if_false, List.length_cons] at hlt ⊢
      cases i with
      | zero =>
        simp only [List.get?_cons_zero, Option.some.injEq] at hget
        subst hget
        cases rest with
        | nil => simp [nextTarget]
        | cons q qs => simp [nextTarget]
      | succ i2 => simp at hlt

/-- When every hop of the combo accepts, the walk returns the conduit
threaded through all of them in order, flips no alive flag, and attempts
every hop. -/
theorem connectThroughAux_allOk (env : Nat → Bool) (fh : String) (fp : Nat) :
    ∀ (combo : List PProxy) (conn dead : List Nat),
    (∀ p ∈ combo, env p.id = true) →
    (connectThroughAux env fh fp combo conn dead).1 =
        .ok (conn ++ combo.map (fun p => p.id))
    ∧ (connectThroughAux env fh fp combo conn dead).2.1 = dead
    ∧ (connectThroughAux env fh fp combo conn dead).2.2.length =
        combo.length := by
  intro combo
  induction combo with
  | nil => intro conn dead _; simp [connectThroughAux]
  | cons p0 rest ih =>
    intro conn dead hall
    have he : env p0.id = true := hall p0 (by simp)
    have h2 := ih (conn ++ [p0.id]) dead (fun p hp => hall p (by simp [hp]))
    simp only [connectThroughAux, he, if_true, List.map_cons, List.length_cons]
    refine ⟨?_, h2.2.1, by simp [h2.2.2]⟩
    rw [h2.1]
    simp

/-- Failure at the first rejecting hop: the error names that hop, its id
(and no other) is added to the dead set, and the walk stops there. -/
theorem connectThroughAux_firstFail (env : Nat → Bool) (fh : String)
    (fp : Nat) :
    ∀ (combo : List PProxy) (conn dead : List Nat) (i : Nat) (p : PProxy),
    combo.get? i = some p → env p.id = false →
    (∀ j q, j < i → combo.get? j = some q → env q.id = true) →
    (connectThroughAux env fh fp combo conn dead).1 =
        .error ("hop " ++ p.name)
    ∧ (connectThroughAux env fh fp combo conn dead).2.1 = p.id :: dead
    ∧ (connectThroughAux env fh fp combo conn dead).2.2.length = i + 1 := by
  intro combo
  induction combo with
  | nil => intro conn dead i p hget; simp at hget
  | cons p0 rest ih =>
    intro conn dead i p hget hfail hprev
    cases i with
    | zero =>
      simp only [List.get?_cons_zero, Option.some.injEq] at hget
      subst hget
      simp [connectThroughAux, hfail]
    | succ i2 =>
      simp only [List.get?_cons_succ] at hget
      have he : env p0.id = true :=
        hprev 0 p0 (Nat.succ_pos i2) (by simp)
      have h2 := ih (conn ++ [p0.id]) dead i2 p hget hfail
        (fun j q hj hq => hprev (j + 1) q (by omega) (by simpa using hq))
      simp only [connectThroughAux, he, if_true]
      exact ⟨h2.1, h2.2.1, by simp [h2.2.2]⟩

/-- C7: `connectThrough` walks the combo in order: the attempt at index
`i` targets `combo[i+1]`'s host and port (the final destination at the
last index) and reuses the conduit built by the previous hops, so a full
success returns the tunnel threaded through every combo entry in order;
on the first failure at index `i` exactly `combo[i]` is marked dead, the
error names that hop, and no further hop is attempted. -/
theorem connectThrough_walk (env : Nat → Bool) (combo : List PProxy)
    (fh : String) (fp : Nat) (dead : List Nat) :
    (∀ i p, combo.get? i = some p →
      i < (connectThrough env combo fh fp dead).2.2.length →
      (connectThrough env combo fh fp dead).2.2.get? i =
        some (p.name, (nextTarget combo fh fp i).1,
          (nextTarget combo fh fp i).2))
    ∧ ((∀ p ∈ combo, env p.id = true) →
      (connectThrough env combo fh fp dead).1 =
          .ok (combo.map (fun p => p.id))
      ∧ (connectThrough env combo fh fp dead).2.1 = dead
      ∧ (connectThrough env combo fh fp dead).2.2.length = combo.length)
    ∧ (∀ i p, combo.get? i = some p → env p.id = false →
      (∀ j q, j < i → combo.get? j = some q → env q.id = true) →
      (connectThrough env combo fh fp dead).1 = .error ("hop " ++ p.name)
      ∧ (connectThrough env combo fh fp dead).2.1 = p.id :: dead
      ∧ (connectThrough env combo fh fp dead).2.2.length = i + 1) := by
  refine ⟨?_, ?_, ?_⟩
  · intro i p hget hlt
    exact connectThroughAux_trace env fh fp combo [] dead i p hget hlt
  · intro hall
    have h := connectThroughAux_allOk env fh fp combo [] dead hall
    simpa [connectThrough] using h
  · intro i p hget hfail hprev
    exact connectThroughAux_firstFail env fh fp combo [] dead i p hget
      hfail hprev

/-- C7 witness: in a two-hop combo where only the second hop rejects,
the first attempt targets the second hop's endpoint, the error names the
second hop, and only its id is marked dead. -/
theorem connectThrough_walk_witness :
    (connectThrough (fun i => i ≠ 2) [⟨"A", "", "", "ha", 1, 0, 1⟩,
        ⟨"B", "", "", "hb", 2, 0, 2⟩] "t" 80 []).2.2.get? 0 =
      some ("A", "hb", 2)
    ∧ (connectThrough (fun i => i ≠ 2) [⟨"A", "", "", "ha", 1, 0, 1⟩,
        ⟨"B", "", "", "hb", 2, 0, 2⟩] "t" 80 []).1 = .error "hop B"
    ∧ (connectThrough (fun i => i ≠ 2) [⟨"A", "", "", "ha", 1, 0, 1⟩,
        ⟨"B", "", "", "hb", 2, 0, 2⟩] "t" 80 []).2.1 = [2] := by
  have h := connectThrough_walk (fun i => i ≠ 2)
    [⟨"A", "", "", "ha", 1, 0, 1⟩, ⟨"B", "", "", "hb", 2, 0, 2⟩] "t" 80 []
  refine ⟨?_, ?_, ?_⟩
  · exact h.1 0 ⟨"A", "", "", "ha", 1, 0, 1⟩ (by decide) (by decide)
  · refine (h.2.2 1 ⟨"B", "", "", "hb", 2, 0, 2⟩ (by decide) (by decide) ?_).1
    intro j q hj hq
    have hj0 : j = 0 := by omega
    subst hj0
    simp only [List.get?_cons_zero, Option.some.injEq] at hq
    subst hq
    decide
  · refine (h.2.2 1 ⟨"B", "", "", "hb", 2, 0, 2⟩ (by decide) (by decide)
      ?_).2.1
    intro j q hj hq
    have hj0 : j = 0 := by omega
    subst hj0
    simp only [List.get?_cons_zero, Option.some.injEq] at hq
    subst hq
    decide

/-! ## C9: empty chain -/

/-- C9: with an empty chain and no cache, `dialChain` bottoms out
immediately: `connectThrough` over the empty combo returns the zero
conduit (Go's nil `net.Conn`) with a nil error, and an empty combo is
installed as the cache; and `handleConn` never chooses the chain dialer
in this situation, because its dispatch takes the direct dial whenever
no ChainState is bound or the bound chain is empty. -/
theorem dialChain_empty_chain (sh : List PProxy → List PProxy)
    (env : Nat → Bool) (now : Nat) (st : ChainStateM) (fh : String)
    (fp : Nat) (dead : List Nat)
    (hchain : st.chain = []) (hcache : st.cache = none) :
    dialChain sh env now st fh fp dead =
      (.ok [], { st with cache := some ⟨[], now⟩ }, dead)
    ∧ (∀ s : Option ChainStateM,
        (s = none ∨ ∃ cs, s = some cs ∧ cs.chain = []) →
        dialIsChain s = false) := by
  refine ⟨?_, ?_⟩
  · have h0 : dialChainRecursive sh env fh fp 0 ([] : List HopM) [] dead =
        (.ok ([], []), [], dead) := by
      simp [dialChainRecursive, connectThrough, connectThroughAux]
    simp only [dialChain, hcache, hchain]
    simp [h0]
  · intro s hs
    rcases hs with h | ⟨cs, hcs, hc⟩
    · subst h; rfl
    · subst hcs; simp [dialIsChain, hc]

/-- C9 witness: a concrete empty-chain state dials to the nil conduit,
installs the empty combo cache, and is dispatched to the direct dial. -/
theorem dialChain_empty_chain_witness :
    dialChain id (fun _ => true) 7 ⟨0, [], [], none⟩ "t" 80 [] =
      (.ok [], ⟨0, [], [], some ⟨[], 7⟩⟩, [])
    ∧ dialIsChain (some ⟨0, [], [], none⟩) = false := by
  have h := dialChain_empty_chain id (fun _ => true) 7 ⟨0, [], [], none⟩
    "t" 80 [] rfl rfl
  exact ⟨h.1, h.2 (some ⟨0, [], [], none⟩) (Or.inr ⟨_, rfl, rfl⟩)⟩

/-! ## C1: replies per session -/

theorem repCount_cons_methodSel (m : Nat) (l : List Msg) :
    repCount (.methodSel m :: l) = repCount l := by
  simp [repCount, List.filter]

theorem repCount_cons_authRep (s : Nat) (l : List Msg) :
    repCount (.authRep s :: l) = repCount l := by
  simp [repCount, List.filter]

theorem repCount_cons_rep (c : Nat) (l : List Msg) :
    repCount (.rep c :: l) = repCount l + 1 := by
  simp [repCount, List.filter]

theorem repCount_dialStep (st : Option ChainStateM) (dialOk : Bool)
    (rest : List Nat) : repCount (dialStep st dialOk rest).1 ≤ 1 := by
  rcases rest with _ | ⟨a, _ | ⟨b, r⟩⟩
  · simp [dialStep, repCount]
  · simp [dialStep, repCount]
  · by_cases h : dialOk <;> simp [dialStep, h, repCount, List.filter]

theorem repCount_requestAddrPhase (st : Option ChainStateM) (dialOk : Bool)
    (atyp : Nat) (input : List Nat) :
    repCount (requestAddrPhase st dialOk atyp input).1 ≤ 1 := by
  unfold requestAddrPhase
  match atyp with
  | 1 =>
    by_cases h : 4 ≤ input.length
    · simpa [h] using repCount_dialStep st dialOk (input.drop 4)
    · simp [h, repCount, List.filter]
  | 3 =>
    rcases input with _ | ⟨dlen, rest⟩
    · simp [repCount, List.filter]
    · by_cases h : dlen ≤ rest.length
      · simpa [h] using repCount_dialStep st dialOk (rest.drop dlen)
      · simp [h, repCount, List.filter]
  | 4 =>
    by_cases h : 16 ≤ input.length
    · simpa [h] using repCount_dialStep st dialOk (input.drop 16)
    · simp [h, repCount, List.filter]
  | 0 => simp [repCount, List.filter]
  | 2 => simp [repCount, List.filter]
  | (n + 5) => simp [repCount, List.filter]

theorem repCount_requestPhase (st : Option ChainStateM) (dialOk : Bool)
    (input : List Nat) : repCount (requestPhase st dialOk input).1 ≤ 1 := by
  rcases input with _ | ⟨v, _ | ⟨c, _ | ⟨r, _ | ⟨a, rest⟩⟩⟩⟩
  · simp [requestPhase, repCount, List.filter]
  · simp [requestPhase, repCount, List.filter]
  · simp [requestPhase, repCount, List.filter]
  · simp [requestPhase, repCount, List.filter]
  · by_cases h1 : v = 5
    · by_cases h2 : c = 1
      · simpa [requestPhase, h1, h2] using
          repCount_requestAddrPhase st dialOk a rest
      · simp [requestPhase, h1, h2, repCount, List.filter]
    · simp [requestPhase, h1, repCount]

theorem repCount_authLookup (chains : List (List Nat × ChainStateM))
    (dialOk : Bool) (uname passwd restAfter : List Nat) :
    repCount (authLookup chains dialOk uname passwd restAfter).1 ≤ 1 := by
  unfold authLookup
  rcases hlk : lookupU chains uname with _ | stt
  · simp [repCount, List.filter]
  · by_cases hbe : bytesEq stt.password passwd
    · simpa [hbe, repCount_cons_authRep] using
        repCount_requestPhase (some stt) dialOk restAfter
    · simp [hbe, repCount, List.filter]

theorem repCount_authPhase (chains : List (List Nat × ChainStateM))
    (dialOk : Bool) (input : List Nat) :
    repCount (authPhase chains dialOk input).1 ≤ 1 := by
  rcases input with _ | ⟨aver, _ | ⟨ulen, rest⟩⟩
  · simp [authPhase, repCount, List.filter]
  · simp [authPhase, repCount, List.filter]
  · simp only [authPhase]
    split_ifs with h1 h2 h3 h4 h5
    · simp [repCount, List.filter]
    · simp [repCount, List.filter]
    · simp [repCount, List.filter]
    · simp [repCount, List.filter]
    · simp [repCount, List.filter]
    · apply repCount_authLookup

/-- C1 counterexample: a connection that sends a valid no-auth greeting
and then a request header with version byte 0x04 receives only the
method-selection message `05 00` and is closed silently: zero SOCKS5 REP
replies are emitted, not exactly one. -/
theorem handleConn_silent_close_cex :
    handleConn [] [5, 1, 0, 4, 1, 0, 1] true = [.methodSel 0]
    ∧ repCount (handleConn [] [5, 1, 0, 4, 1, 0, 1] true) = 0 := by
  decide

/-- C1 amended: every accepted connection receives at most one SOCKS5
REP reply before close; the silent-close paths (request version ≠ 0x05,
truncated address or port) emit none, every other completed path emits
exactly one. -/
theorem handleConn_at_most_one_reply
    (chains : List (List Nat × ChainStateM)) (input : List Nat)
    (dialOk : Bool) : repCount (handleConn chains input dialOk) ≤ 1 := by
  rcases input with _ | ⟨ver, _ | ⟨nmethods, rest⟩⟩
  · simp [handleConn, handleConnFull, repCount, List.filter]
  · simp [handleConn, handleConnFull, repCount, List.filter]
  · simp only [handleConn, handleConnFull]
    split_ifs <;>
      first
      | exact absurd trivial (by assumption)
      | simpa [repCount_cons_methodSel] using
          repCount_authPhase chains dialOk (rest.drop nmethods)
      | simpa [repCount_cons_methodSel] using
          repCount_requestPhase none dialOk (rest.drop nmethods)
      | simp [repCount, List.filter]

/-! ## C4: priority strategy -/

theorem lookupRR_cons (e : Int × Nat) (m : List (Int × Nat)) (k : Int) :
    lookupRR (e :: m) k = if e.1 = k then some e.2 else lookupRR m k := by
  by_cases h : e.1 = k <;> simp [lookupRR, List.find?_cons, h]

theorem setRR_cons (e : Int × Nat) (m : List (Int × Nat)) (k : Int)
    (v : Nat) :
    setRR (e :: m) k v =
      (if e.1 = k then (e.1, v) else e) :: setRR m k v := rfl

theorem lookupRR_setRR_ne (m : List (Int × Nat)) (k k2 : Int) (v : Nat)
    (h : k2 ≠ k) : lookupRR (setRR m k v) k2 = lookupRR m k2 := by
  induction m with
  | nil => rfl
  | cons e m ih =>
    rw [setRR_cons, lookupRR_cons, lookupRR_cons]
    by_cases he : e.1 = k
    · have hne : ¬ e.1 = k2 := fun hc => h (hc.symm.trans he)
      rw [if_pos he]
      simp [hne, ih]
    · rw [if_neg he]
      by_cases he2 : e.1 = k2 <;> simp [he2, ih]

theorem setRR_map_fst (m : List (Int × Nat)) (k : Int) (v : Nat) :
    (setRR m k v).map Prod.fst = m.map Prod.fst := by
  induction m with
  | nil => rfl
  | cons e m ih =>
    rw [setRR_cons]
    by_cases he : e.1 = k <;> simp [he, ih]

theorem lookupRR_mem_nodup (m : List (Int × Nat))
    (hnd : (m.map Prod.fst).Nodup) (e : Int × Nat) (he : e ∈ m) :
    lookupRR m e.1 = some e.2 := by
  induction m with
  | nil => cases he
  | cons f m ih =>
    rcases List.mem_cons.1 he with hef | hem
    · subst hef; simp [lookupRR_cons]
    · have hf : f.1 ∉ m.map Prod.fst := by
        simp only [List.map_cons, List.nodup_cons] at hnd
        exact hnd.1
      have hne : f.1 ≠ e.1 := fun hc =>
        hf (hc ▸ List.mem_map_of_mem Prod.fst hem)
      rw [lookupRR_cons, if_neg hne]
      exact ih (by simpa using (List.nodup_cons.1 (by simpa using hnd)).2) hem

theorem flatMap_congr_mem (l : List Int) (f g : Int → List PProxy)
    (h : ∀ x ∈ l, f x = g x) : l.flatMap f = l.flatMap g := by
  induction l with
  | nil => rfl
  | cons x l ih =>
    simp only [List.flatMap_cons]
    rw [h x (by simp), ih (fun y hy => h y (by simp [hy]))]

theorem dedupFirst_mem (l : List Int) (x : Int) :
    x ∈ dedupFirst l ↔ x ∈ l := by
  induction l with
  | nil => simp [dedupFirst]
  | cons a l ih =>
    simp only [dedupFirst, List.mem_cons, List.mem_filter]
    constructor
    · rintro (h | ⟨h1, _⟩)
      · exact Or.inl h
      · exact Or.inr (ih.1 h1)
    · rintro (h | h)
      · exact Or.inl h
      · by_cases hx : x = a
        · exact Or.inl hx
        · exact Or.inr ⟨ih.2 h, by simpa using hx⟩

theorem dedupFirst_nodup (l : List Int) : (dedupFirst l).Nodup := by
  induction l with
  | nil => simp [dedupFirst]
  | cons a l ih =>
    simp only [dedupFirst, List.nodup_cons]
    refine ⟨?_, ih.filter _⟩
    intro hmem
    have := (List.mem_filter.1 hmem).2
    simp at this

theorem insertDesc_perm (x : Int) (l : List Int) :
    (insertDesc x l).Perm (x :: l) := by
  induction l with
  | nil => simp [insertDesc]
  | cons y l ih =>
    by_cases h : y < x
    · simp [insertDesc, h]
    · simp only [insertDesc, h, if_false]
      exact (ih.cons y).trans (List.Perm.swap x y l)

theorem sortDescInt_perm (l : List Int) : (sortDescInt l).Perm l := by
  induction l with
  | nil => simp [sortDescInt]
  | cons x l ih =>
    exact (insertDesc_perm x (sortDescInt l)).trans (ih.cons x)

/-- Closed form of the priority loop: over distinct priorities whose
multi-member groups have registered counters and over a counter map with
distinct keys, the emitted order concatenates the groups in the given
order, rotating each multi-member group by its counter, and the final
counter map increments exactly the multi-member groups' counters. -/
theorem priorityConcat_spec (base : List PProxy) :
    ∀ (prios : List Int) (rrm : List (Int × Nat)),
    prios.Nodup →
    (∀ pr ∈ prios, 1 < (base.filter (fun p => p.priority = pr)).length →
      (lookupRR rrm pr).isSome) →
    (rrm.map Prod.fst).Nodup →
    priorityConcat base rrm prios =
      (prios.flatMap (fun pr =>
        if 1 < (base.filter (fun p => p.priority = pr)).length then
          rotateBy (base.filter (fun p => p.priority = pr))
            (((lookupRR rrm pr).getD 0) %
              (base.filter (fun p => p.priority = pr)).length)
        else base.filter (fun p => p.priority = pr)),
       rrm.map (fun e =>
        if e.1 ∈ prios ∧
            1 < (base.filter (fun p => p.priority = e.1)).length then
          (e.1, (e.2 + 1) % u32)
        else e)) := by
  intro prios
  induction prios with
  | nil =>
    intro rrm _ _ _
    simp [priorityConcat]
  | cons pr prs ih =>
    intro rrm hnd hreg hkeys
    have hndp : prs.Nodup := (List.nodup_cons.1 hnd).2
    have hnotin : pr ∉ prs := (List.nodup_cons.1 hnd).1
    by_cases hmulti : 1 < (base.filter (fun p => p.priority = pr)).length
    · obtain ⟨c, hc⟩ := Option.isSome_iff_exists.1 (hreg pr (by simp) hmulti)
      have hstep : priorityStep base rrm pr =
          (rotateBy (base.filter (fun p => p.priority = pr))
            (c % (base.filter (fun p => p.priority = pr)).length),
           setRR rrm pr ((c + 1) % u32)) := by
        simp [priorityStep, hmulti, hc]
      have hreg2 : ∀ q ∈ prs,
          1 < (base.filter (fun p => p.priority = q)).length →
          (lookupRR (setRR rrm pr ((c + 1) % u32)) q).isSome := by
        intro q hq hg
        have hqne : q ≠ pr := fun hqq => hnotin (hqq ▸ hq)
        rw [lookupRR_setRR_ne rrm pr q ((c + 1) % u32) hqne]
        exact hreg q (by simp [hq]) hg
      have hkeys2 : ((setRR rrm pr ((c + 1) % u32)).map Prod.fst).Nodup := by
        rw [setRR_map_fst]; exact hkeys
      have hrec := ih (setRR rrm pr ((c + 1) % u32)) hndp hreg2 hkeys2
      have hgoal1 : (priorityConcat base rrm (pr :: prs)).1 =
          (pr :: prs).flatMap (fun q =>
            if 1 < (base.filter (fun p => p.priority = q)).length then
              rotateBy (base.filter (fun p => p.priority = q))
                (((lookupRR rrm q).getD 0) %
                  (base.filter (fun p => p.priority = q)).length)
            else base.filter (fun p => p.priority = q)) := by
        simp only [priorityConcat, hstep, hrec, List.flatMap_cons]
        rw [if_pos hmulti, hc]
        congr 1
        apply flatMap_congr_mem
        intro q hq
        have hqne : q ≠ pr := fun hqq => hnotin (hqq ▸ hq)
        rw [lookupRR_setRR_ne rrm pr q ((c + 1) % u32) hqne]
      have hgoal2 : (priorityConcat base rrm (pr :: prs)).2 =
          rrm.map (fun e =>
            if e.1 ∈ pr :: prs ∧
                1 < (base.filter (fun p => p.priority = e.1)).length then
              (e.1, (e.2 + 1) % u32)
            else e) := by
        simp only [priorityConcat, hstep, hrec]
        show (setRR rrm pr ((c + 1) % u32)).map _ = _
        rw [show setRR rrm pr ((c + 1) % u32) =
            rrm.map (fun e => if e.1 = pr then (e.1, (c + 1) % u32) else e)
          from rfl]
        rw [List.map_map]
        apply List.map_congr_left
        intro e he
        by_cases hepr : e.1 = pr
        · have hcv : c = e.2 := by
            have hme := lookupRR_mem_nodup rrm hkeys e he
            rw [hepr] at hme
            rw [hme] at hc
            exact (Option.some_inj.1 hc).symm
          simp [Function.comp_apply, hepr, hnotin, hmulti, hcv]
        · simp [Function.comp_apply, hepr]
      exact Prod.ext hgoal1 hgoal2
    · have hstep : priorityStep base rrm pr =
          (base.filter (fun p => p.priority = pr), rrm) := by
        simp [priorityStep, hmulti]
      have hreg2 : ∀ q ∈ prs,
          1 < (base.filter (fun p => p.priority = q)).length →
          (lookupRR rrm q).isSome := fun q hq hg => hreg q (by simp [hq]) hg
      have hrec := ih rrm hndp hreg2 hkeys
      have hgoal1 : (priorityConcat base rrm (pr :: prs)).1 =
          (pr :: prs).flatMap (fun q =>
            if 1 < (base.filter (fun p => p.priority = q)).length then
              rotateBy (base.filter (fun p => p.priority = q))
                (((lookupRR rrm q).getD 0) %
                  (base.filter (fun p => p.priority = q)).length)
            else base.filter (fun p => p.priority = q)) := by
        simp only [priorityConcat, hstep, hrec, List.flatMap_cons]
        rw [if_neg hmulti]
      have hgoal2 : (priorityConcat base rrm (pr :: prs)).2 =
          rrm.map (fun e =>
            if e.1 ∈ pr :: prs ∧
                1 < (base.filter (fun p => p.priority = e.1)).length then
              (e.1, (e.2 + 1) % u32)
            else e) := by
        simp only [priorityConcat, hstep, hrec]
        apply List.map_congr_left
        intro e he
        by_cases hepr : e.1 = pr
        · simp [hepr, hnotin, hmulti]
        · simp [hepr]
      exact Prod.ext hgoal1 hgoal2

/-- C4: for a hop with the priority strategy (counters registered for
every live priority class, as `initProxies` guarantees, and with the
distinct keys of a Go map), `orderedProxies` returns exactly the
spec-worded ordering — live-filtered proxies grouped by priority, groups
concatenated in descending priority order, each group of more than one
member rotated by that group's counter — and updates the hop by
incrementing exactly the multi-member groups' counters once, so
successive calls rotate each multi-member group round-robin while
singleton groups keep their position. -/
theorem orderedProxies_priority (sh : List PProxy → List PProxy)
    (h : HopM) (dead : List Nat)
    (hstrat : strToLower h.strategy = "priority")
    (hpool : 0 < h.proxies.length)
    (hlive : liveOf h dead ≠ [])
    (hreg : ∀ p ∈ liveOf h dead, (lookupRR h.priorityRR p.priority).isSome)
    (hkeys : (h.priorityRR.map Prod.fst).Nodup) :
    (orderedProxies sh h dead).1 =
      prioritySpecOrder (liveOf h dead) h.priorityRR
    ∧ (orderedProxies sh h dead).2 =
      { h with priorityRR :=
          prioritySpecCounters (liveOf h dead) h.priorityRR } := by
  have hlen : ¬ (liveOf h dead).length = 0 := by
    intro h0
    exact hlive (List.eq_nil_of_length_eq_zero h0)
  have hnodup : (sortDescInt (dedupFirst
      ((liveOf h dead).map (fun p => p.priority)))).Nodup :=
    ((sortDescInt_perm _).nodup_iff).2 (dedupFirst_nodup _)
  have hmem_of_multi : ∀ k : Int,
      1 < ((liveOf h dead).filter (fun p => p.priority = k)).length →
      k ∈ sortDescInt (dedupFirst
        ((liveOf h dead).map (fun p => p.priority))) := by
    intro k hk
    have hne : ((liveOf h dead).filter (fun p => p.priority = k)) ≠ [] := by
      intro hnil
      rw [hnil] at hk
      simp at hk
    obtain ⟨p, hp⟩ := List.exists_mem_of_ne_nil _ hne
    have hpl := List.mem_filter.1 hp
    have hkm : k ∈ (liveOf h dead).map (fun p => p.priority) := by
      refine List.mem_map.2 ⟨p, hpl.1, ?_⟩
      simpa using hpl.2
    exact ((sortDescInt_perm _).mem_iff).2 ((dedupFirst_mem _ _).2 hkm)
  have hregp : ∀ pr ∈ sortDescInt (dedupFirst
      ((liveOf h dead).map (fun p => p.priority))),
      1 < ((liveOf h dead).filter (fun p => p.priority = pr)).length →
      (lookupRR h.priorityRR pr).isSome := by
    intro pr hpr _
    have hprm : pr ∈ (liveOf h dead).map (fun p => p.priority) :=
      (dedupFirst_mem _ _).1 (((sortDescInt_perm _).mem_iff).1 hpr)
    obtain ⟨p, hpmem, hpp⟩ := List.mem_map.1 hprm
    exact hpp ▸ hreg p hpmem
  have hcp := priorityConcat_spec (liveOf h dead)
    (sortDescInt (dedupFirst ((liveOf h dead).map (fun p => p.priority))))
    h.priorityRR hnodup hregp hkeys
  have hcount : (rrm2 : List (Int × Nat)) → rrm2 = h.priorityRR →
      h.priorityRR.map (fun e =>
        if e.1 ∈ sortDescInt (dedupFirst
            ((liveOf h dead).map (fun p => p.priority))) ∧
          1 < ((liveOf h dead).filter
            (fun p => p.priority = e.1)).length then
          (e.1, (e.2 + 1) % u32)
        else e) = prioritySpecCounters (liveOf h dead) h.priorityRR := by
    intro rrm2 _
    unfold prioritySpecCounters
    apply List.map_congr_left
    intro e _
    by_cases hm : 1 < ((liveOf h dead).filter
        (fun p => p.priority = e.1)).length
    · rw [if_pos ⟨hmem_of_multi e.1 hm, hm⟩, if_pos hm]
    · rw [if_neg (fun hx => hm hx.2), if_neg hm]
  have hb : baseOf h dead = liveOf h dead := if_pos hpool
  simp only [orderedProxies, hb]
  rw [if_neg hlen, hstrat]
  simp only [hcp]
  exact ⟨rfl, by rw [hcount h.priorityRR rfl]⟩

/-- C4 witness: the `TestPriorityStrategy` hop (priorities 2 > 1, both
counters registered at zero) follows the spec-worded ordering and
counter update. -/
theorem orderedProxies_priority_witness :
    (orderedProxies id tHop []).1 =
      prioritySpecOrder (liveOf tHop []) tHop.priorityRR
    ∧ (orderedProxies id tHop []).2 =
      { tHop with priorityRR :=
          prioritySpecCounters (liveOf tHop []) tHop.priorityRR } :=
  orderedProxies_priority id tHop [] (by decide) (by decide) (by decide)
    (by decide) (by decide)

/-! ## C3: hot reload identity -/

/-- Lookup through a key-preserving map. -/
theorem lookupU_map_keyed (g : (List Nat × ChainStateM) → ChainStateM)
    (l : List (List Nat × ChainStateM)) (k : List Nat) :
    lookupU (l.map (fun e => (e.1, g e))) k =
      (l.find? (fun e => e.1 = k)).map g := by
  induction l with
  | nil => rfl
  | cons e l ih =>
    by_cases h : e.1 = k
    · simp [lookupU_cons, h, List.find?_cons, lookupU, ih]
    · simp only [List.map_cons, lookupU_cons, if_neg h]
      rw [List.find?_cons_of_neg _ (by simpa using h)]
      exact ih

/-- C3 counterexample: a single dial through a default-strategy chain
advances the hop's rotation counter in place, so an identical-config
reload no longer deep-equals it: the published map binds the new
ChainState (identity 200), the prior one (identity 100) is retired, and
its populated combo cache is lost — the instance is not preserved even
though the reload produced an identical chain. -/
theorem reload_identity_lost_after_traffic_cex :
    (dialChain id (fun _ => true) 5 rrState "t" 80 []).1.toOption = some [1]
    ∧ rrStateReloaded.chain = rrState.chain
    ∧ rrStateReloaded.password = rrState.password
    ∧ rrStateAfterTraffic.password = rrState.password
    ∧ rrStateAfterTraffic.cache.isSome = true
    ∧ rrState.id = 100 ∧ rrStateAfterTraffic.id = 100
    ∧ rrStateReloaded.id = 200
    ∧ deepEqualChain [] rrStateAfterTraffic.chain
        rrStateReloaded.chain = false
    ∧ (lookupU (reloadMerge [] [([117], rrStateAfterTraffic)]
        [([117], rrStateReloaded)]).1 [117]).map (fun cs => cs.id) =
        some 200
    ∧ (reloadMerge [] [([117], rrStateAfterTraffic)]
        [([117], rrStateReloaded)]).2.map (fun cs => cs.id) = [100] := by
  decide

/-- C3 amended: the reload merge retains the prior ChainState object
for a username exactly when the prior chain deep-equals the new one —
an equality that covers the mutable rotation counters and alive flags,
not just the configured fields — and the passwords match; otherwise the
new state is installed and the displaced one retired, and every removed
username's state is retired.  A reload that rebuilds an identical
configuration therefore preserves the instance only while no counter or
alive flag has moved since the old snapshot was built. -/
theorem reloadMerge_spec (dead : List Nat)
    (oldC newC : List (List Nat × ChainStateM)) :
    (∀ name, lookupU (reloadMerge dead oldC newC).1 name =
      (newC.find? (fun e => e.1 = name)).map (fun e =>
        match lookupU oldC e.1 with
        | some old =>
          if deepEqualChain dead old.chain e.2.chain &&
              old.password = e.2.password then old else e.2
        | none => e.2))
    ∧ (∀ e ∈ newC, ∀ old, lookupU oldC e.1 = some old →
        (deepEqualChain dead old.chain e.2.chain &&
          old.password = e.2.password) = false →
        old ∈ (reloadMerge dead oldC newC).2)
    ∧ (∀ e ∈ oldC, lookupU newC e.1 = none →
        e.2 ∈ (reloadMerge dead oldC newC).2) := by
  refine ⟨?_, ?_, ?_⟩
  · intro name
    have hshape : (reloadMerge dead oldC newC).1 =
        newC.map (fun e => (e.1,
          match lookupU oldC e.1 with
          | some old =>
            if deepEqualChain dead old.chain e.2.chain &&
                old.password = e.2.password then old else e.2
          | none => e.2)) := by
      simp only [reloadMerge]
      apply List.map_congr_left
      intro e _
      rcases hlk : lookupU oldC e.1 with _ | old
      · rfl
      · by_cases hcond : (deepEqualChain dead old.chain e.2.chain &&
            old.password = e.2.password) = true
        · simp [hlk, hcond]
        · simp [hlk, hcond]
    rw [hshape, lookupU_map_keyed]
  · intro e he old hlk hcond
    apply List.mem_append_left
    apply List.mem_filterMap.2
    refine ⟨e, he, ?_⟩
    simp [hlk, hcond]
  · intro e he hnone
    apply List.mem_append_right
    apply List.mem_filterMap.2
    refine ⟨e, he, ?_⟩
    simp [hnone]

/-- C3 amended witness: with no prior traffic the identical reload keeps
the prior object, and a removed username's state is retired. -/
theorem reloadMerge_spec_witness :
    lookupU (reloadMerge [] [([117], rrState)]
        [([117], rrStateReloaded)]).1 [117] = some rrState
    ∧ rrState ∈ (reloadMerge [] [([117], rrState)] ([] :
        List (List Nat × ChainStateM))).2 := by
  constructor
  · have h := (reloadMerge_spec [] [([117], rrState)]
      [([117], rrStateReloaded)]).1 [117]
    rw [h]
    decide
  · exact (reloadMerge_spec [] [([117], rrState)] []).2.2
      ([117], rrState) (by simp) (by decide)

/-! ## C6: dialChain cache -/

/-- Invariant preservation through a fold over candidates. -/
theorem foldl_inv_mem {α β : Type _} (P : β → Prop) (f : β → α → β) :
    ∀ (l : List α), (∀ b a, a ∈ l → P b → P (f b a)) →
    ∀ b, P b → P (l.foldl f b) := by
  intro l
  induction l with
  | nil => intro _ b h; exact h
  | cons a l ih =>
    intro hf b h
    exact ih (fun b2 a2 ha2 hb2 => hf b2 a2 (List.mem_cons_of_mem a ha2) hb2)
      (f b a) (hf b a (List.mem_cons_self a l) h)

theorem hopShapeEq_refl (a : HopM) : hopShapeEq a a = true := by
  simp [hopShapeEq]

theorem hopShapeEq_trans (a b c : HopM) (h1 : hopShapeEq a b = true)
    (h2 : hopShapeEq b c = true) : hopShapeEq a c = true := by
  simp only [hopShapeEq, Bool.and_eq_true, decide_eq_true_eq] at h1 h2 ⊢
  exact ⟨⟨⟨⟨⟨⟨⟨h1.1.1.1.1.1.1.1.trans h2.1.1.1.1.1.1.1,
    h1.1.1.1.1.1.1.2.trans h2.1.1.1.1.1.1.2⟩,
    h1.1.1.1.1.1.2.trans h2.1.1.1.1.1.2⟩,
    h1.1.1.1.1.2.trans h2.1.1.1.1.2⟩,
    h1.1.1.1.2.trans h2.1.1.1.2⟩,
    h1.1.1.2.trans h2.1.1.2⟩,
    h1.1.2.trans h2.1.2⟩,
    h1.2.trans h2.2⟩

theorem chainShapeEq_refl (l : List HopM) : chainShapeEq l l = true := by
  induction l with
  | nil => rfl
  | cons a l ih => simp [chainShapeEq, hopShapeEq_refl, ih]

theorem chainShapeEq_length (l1 l2 : List HopM)
    (h : chainShapeEq l1 l2 = true) : l1.length = l2.length := by
  induction l1 generalizing l2 with
  | nil => cases l2 with
    | nil => rfl
    | cons b l2 => simp [chainShapeEq] at h
  | cons a l1 ih =>
    cases l2 with
    | nil => simp [chainShapeEq] at h
    | cons b l2 =>
      simp only [chainShapeEq, Bool.and_eq_true] at h
      simp [ih l2 h.2]

theorem chainShapeEq_get (l1 l2 : List HopM)
    (h : chainShapeEq l1 l2 = true) (k : Nat) (a : HopM)
    (ha : l1.get? k = some a) :
    ∃ b, l2.get? k = some b ∧ hopShapeEq a b = true := by
  induction l1 generalizing l2 k with
  | nil => simp at ha
  | cons x l1 ih =>
    cases l2 with
    | nil => simp [chainShapeEq] at h
    | cons y l2 =>
      simp only [chainShapeEq, Bool.and_eq_true] at h
      cases k with
      | zero =>
        simp only [List.get?_cons_zero, Option.some.injEq] at ha
        exact ⟨y, by simp, ha ▸ h.1⟩
      | succ k2 =>
        simp only [List.get?_cons_succ] at ha ⊢
        exact ih l2 h.2 k2 ha

theorem chainShapeEq_trans (l1 l2 l3 : List HopM)
    (h1 : chainShapeEq l1 l2 = true) (h2 : chainShapeEq l2 l3 = true) :
    chainShapeEq l1 l3 = true := by
  induction l1 generalizing l2 l3 with
  | nil =>
    cases l2 with
    | nil => cases l3 with
      | nil => rfl
      | cons c l3 => simp [chainShapeEq] at h2
    | cons b l2 => simp [chainShapeEq] at h1
  | cons a l1 ih =>
    cases l2 with
    | nil => simp [chainShapeEq] at h1
    | cons b l2 =>
      cases l3 with
      | nil => simp [chainShapeEq] at h2
      | cons c l3 =>
        simp only [chainShapeEq, Bool.and_eq_true] at h1 h2 ⊢
        exact ⟨hopShapeEq_trans a b c h1.1 h2.1, ih l2 l3 h1.2 h2.2⟩

theorem rotateBy_mem (l : List PProxy) (n : Nat) (p : PProxy)
    (h : p ∈ rotateBy l n) : p ∈ l := by
  rcases List.mem_append.1 h with h2 | h2
  · exact List.mem_of_mem_drop h2
  · exact List.mem_of_mem_take h2

theorem priorityConcat_mem (base : List PProxy) :
    ∀ (prios : List Int) (rrm : List (Int × Nat)) (p : PProxy),
    p ∈ (priorityConcat base rrm prios).1 → p ∈ base := by
  intro prios
  induction prios with
  | nil => intro rrm p h; simp [priorityConcat] at h
  | cons pr prs ih =>
    intro rrm p h
    simp only [priorityConcat, List.mem_append] at h
    rcases h with h | h
    · have hg : p ∈ base.filter (fun q => q.priority = pr) := by
        simp only [priorityStep] at h
        split_ifs at h with h1
        · rcases hlk : lookupRR rrm pr with _ | c
          · rw [hlk] at h; exact h
          · rw [hlk] at h
            exact rotateBy_mem _ _ _ h
        · exact h
      exact (List.mem_filter.1 hg).1
    · exact ih _ p h

theorem orderedProxies_shape (sh : List PProxy → List PProxy) (h : HopM)
    (dead : List Nat) : hopShapeEq (orderedProxies sh h dead).2 h = true := by
  unfold orderedProxies
  split
  · exact hopShapeEq_refl h
  · split
    · exact hopShapeEq_refl h
    · simp [hopShapeEq]
    · simp [hopShapeEq]

theorem orderedProxies_mem (sh : List PProxy → List PProxy)
    (hsh : ∀ l x, x ∈ sh l → x ∈ l) (h : HopM) (dead : List Nat)
    (hp : 0 < h.proxies.length) (p : PProxy)
    (hmem : p ∈ (orderedProxies sh h dead).1) : p ∈ liveOf h dead := by
  unfold orderedProxies at hmem
  have hb : baseOf h dead = liveOf h dead := if_pos hp
  rw [hb] at hmem
  by_cases h0 : (liveOf h dead).length = 0
  · rw [if_pos h0] at hmem
    simp at hmem
  · rw [if_neg h0] at hmem
    revert hmem
    split
    · intro hmem
      exact hsh _ _ hmem
    · intro hmem
      exact priorityConcat_mem _ _ _ _ hmem
    · intro hmem
      exact rotateBy_mem _ _ _ hmem

/-- Dead-set evolution of the combo walk: ids are only added, and every
added id failed its handshake. -/
theorem connectThroughAux_dead (env : Nat → Bool) (fh : String) (fp : Nat) :
    ∀ (combo : List PProxy) (conn dead : List Nat),
    ∃ l, (connectThroughAux env fh fp combo conn dead).2.1 = l ++ dead ∧
      ∀ x ∈ l, env x = false := by
  intro combo
  induction combo with
  | nil => intro conn dead; exact ⟨[], rfl, by simp⟩
  | cons p rest ih =>
    intro conn dead
    by_cases he : env p.id
    · obtain ⟨l, hl, hlf⟩ := ih (conn ++ [p.id]) dead
      exact ⟨l, by simpa [connectThroughAux, he] using hl, hlf⟩
    · refine ⟨[p.id], by simp [connectThroughAux, he], ?_⟩
      intro x hx
      simp only [List.mem_singleton] at hx
      subst hx
      simpa using he

/-- A successful combo walk used only accepting hops. -/
theorem connectThroughAux_ok_all (env : Nat → Bool) (fh : String)
    (fp : Nat) :
    ∀ (combo : List PProxy) (conn dead : List Nat) (c : List Nat),
    (connectThroughAux env fh fp combo conn dead).1 = .ok c →
    ∀ p ∈ combo, env p.id = true := by
  intro combo
  induction combo with
  | nil => intro conn dead c _ p hp; cases hp
  | cons q rest ih =>
    intro conn dead c hok p hp
    by_cases he : env q.id
    · rcases List.mem_cons.1 hp with hq | hq
      · subst hq; exact he
      · simp only [connectThroughAux, he, if_true] at hok
        exact ih (conn ++ [q.id]) dead c hok p hq
    · simp [connectThroughAux, he] at hok

/-- Combined invariants of the backtracking search: the returned chain
keeps every hop's shape (only counters move), the dead set grows only by
ids whose handshake the environment rejects, and a success satisfies
`DialOkProps`. -/
theorem dialChainRecursive_props (sh : List PProxy → List PProxy)
    (env : Nat → Bool) (fh : String) (fp : Nat) :
    ∀ (fuel : Nat) (chain : List HopM) (acc : List PProxy)
      (dead : List Nat),
    chainShapeEq
      (dialChainRecursive sh env fh fp fuel chain acc dead).2.1 chain = true
    ∧ DeadGrows env dead
        (dialChainRecursive sh env fh fp fuel chain acc dead).2.2
    ∧ DialOkProps sh env chain acc dead
        (dialChainRecursive sh env fh fp fuel chain acc dead).1 := by
  have hbase : ∀ (fuel : Nat) (acc : List PProxy) (dead : List Nat),
      chainShapeEq
        (dialChainRecursive sh env fh fp fuel [] acc dead).2.1 [] = true
      ∧ DeadGrows env dead
          (dialChainRecursive sh env fh fp fuel [] acc dead).2.2
      ∧ DialOkProps sh env [] acc dead
          (dialChainRecursive sh env fh fp fuel [] acc dead).1 := by
    intro fuel acc dead
    have heq : dialChainRecursive sh env fh fp fuel [] acc dead =
        (match (connectThrough env acc fh fp dead).1 with
         | .ok conn => .ok (conn, acc)
         | .error e => .error e, [],
         (connectThrough env acc fh fp dead).2.1) := by
      cases fuel <;> rfl
    rw [heq]
    refine ⟨rfl, ?_, ?_⟩
    · exact connectThroughAux_dead env fh fp acc [] dead
    · intro conn combo hok
      rcases hct : (connectThrough env acc fh fp dead).1 with e | c
      · rw [hct] at hok; cases hok
      · rw [hct] at hok
        simp only [Except.ok.injEq, Prod.mk.injEq] at hok
        obtain ⟨h1, h2⟩ := hok
        subst h2
        refine ⟨by simp, List.take_length acc, ?_, ?_⟩
        · exact connectThroughAux_ok_all env fh fp acc [] dead c hct
        · intro k hk
          simp at hk
  intro fuel
  induction fuel with
  | zero =>
    intro chain acc dead
    cases chain with
    | nil => exact hbase 0 acc dead
    | cons hop rest =>
      refine ⟨chainShapeEq_refl _, ⟨[], rfl, by simp⟩, ?_⟩
      intro conn combo h
      cases h
  | succ fuel ih =>
    intro chain acc dead
    cases chain with
    | nil => exact hbase (fuel + 1) acc dead
    | cons hop rest =>
      have hstep : ∀ (st : Except String (List Nat × List PProxy) ×
            List HopM × List Nat) (p : PProxy),
          p ∈ (orderedProxies sh hop dead).1 →
          (chainShapeEq st.2.1 rest = true ∧ DeadGrows env dead st.2.2 ∧
            DialOkProps sh env (hop :: rest) acc dead st.1) →
          (chainShapeEq
              ((fun (st : Except String (List Nat × List PProxy) ×
                  List HopM × List Nat) (p : PProxy) =>
                match st with
                | (Except.ok r, rest2, dead2) => (Except.ok r, rest2, dead2)
                | (Except.error _, rest2, dead2) =>
                  dialChainRecursive sh env fh fp fuel rest2
                    (acc ++ [p]) dead2) st p).2.1 rest = true
            ∧ DeadGrows env dead
              ((fun (st : Except String (List Nat × List PProxy) ×
                  List HopM × List Nat) (p : PProxy) =>
                match st with
                | (Except.ok r, rest2, dead2) => (Except.ok r, rest2, dead2)
                | (Except.error _, rest2, dead2) =>
                  dialChainRecursive sh env fh fp fuel rest2
                    (acc ++ [p]) dead2) st p).2.2
            ∧ DialOkProps sh env (hop :: rest) acc dead
              ((fun (st : Except String (List Nat × List PProxy) ×
                  List HopM × List Nat) (p : PProxy) =>
                match st with
                | (Except.ok r, rest2, dead2) => (Except.ok r, rest2, dead2)
                | (Except.error _, rest2, dead2) =>
                  dialChainRecursive sh env fh fp fuel rest2
                    (acc ++ [p]) dead2) st p).1) := by
        rintro ⟨r, rest2, dead2⟩ p hpmem hP
        obtain ⟨hshape2, ⟨l2, hd2, hl2⟩, hokP⟩ := hP
        dsimp only at hshape2 hd2 hokP
        cases r with
        | ok v => exact ⟨hshape2, ⟨l2, hd2, hl2⟩, hokP⟩
        | error e =>
          obtain ⟨ihs, ⟨l3, hd3, hl3⟩, ihok⟩ :=
            ih rest2 (acc ++ [p]) dead2
          refine ⟨chainShapeEq_trans _ _ _ ihs hshape2, ?_, ?_⟩
          · refine ⟨l3 ++ l2, ?_, ?_⟩
            · show (dialChainRecursive sh env fh fp fuel rest2
                (acc ++ [p]) dead2).2.2 = l3 ++ l2 ++ dead
              rw [hd3, hd2, List.append_assoc]
            · intro x hx
              rcases List.mem_append.1 hx with hx | hx
              · exact hl3 x hx
              · exact hl2 x hx
          · intro conn combo h
            obtain ⟨hlen, htake, henv, hent⟩ := ihok conn combo h
            have hlen2 : rest2.length = rest.length :=
              chainShapeEq_length _ _ hshape2
            have htake2 : combo.take (acc.length + 1) = acc ++ [p] := by
              simpa using htake
            refine ⟨?_, ?_, henv, ?_⟩
            · simp only [List.length_append, List.length_cons,
                List.length_nil] at hlen ⊢
              omega
            · have h3 : (combo.take (acc.length + 1)).take acc.length =
                  combo.take acc.length := by
                rw [List.take_take]
                simp
              rw [← h3, htake2]
              simp [List.take_left acc [p]]
            · intro k hk
              cases k with
              | zero =>
                refine ⟨p, hop, hop, dead, ?_, by simp,
                  hopShapeEq_refl hop, hpmem, fun x hx => hx⟩
                have h4 : combo.get? acc.length =
                    (combo.take (acc.length + 1)).get? acc.length := by
                  rw [List.get?_take (by omega)]
                rw [Nat.add_zero, h4, htake2,
                  List.get?_append_right (by simp)]
                simp
              | succ k2 =>
                have hkk : k2 < rest2.length := by
                  simp only [List.length_cons] at hk
                  omega
                obtain ⟨p2, hk3, h2, d2, hg1, hg2, hg3, hg4, hg5⟩ :=
                  hent k2 hkk
                obtain ⟨hk4, hgr, hgs⟩ :=
                  chainShapeEq_get rest2 rest hshape2 k2 hk3 hg2
                refine ⟨p2, hk4, h2, d2, ?_, by simpa using hgr,
                  hopShapeEq_trans _ _ _ hg3 hgs, hg4, ?_⟩
                · have h5 : (acc ++ [p]).length + k2 =
                      acc.length + (k2 + 1) := by
                    simp
                    omega
                  rw [← h5]
                  exact hg1
                · intro x hx
                  apply hg5
                  rw [hd2]
                  exact List.mem_append_right l2 hx
      have hinv := foldl_inv_mem
        (fun st : Except String (List Nat × List PProxy) ×
            List HopM × List Nat =>
          chainShapeEq st.2.1 rest = true ∧ DeadGrows env dead st.2.2 ∧
            DialOkProps sh env (hop :: rest) acc dead st.1)
        (fun (st : Except String (List Nat × List PProxy) ×
            List HopM × List Nat) (p : PProxy) =>
          match st with
          | (Except.ok r, rest2, dead2) => (Except.ok r, rest2, dead2)
          | (Except.error _, rest2, dead2) =>
            dialChainRecursive sh env fh fp fuel rest2 (acc ++ [p]) dead2)
        (orderedProxies sh hop dead).1
        hstep
        ((Except.error "no valid proxy chain" :
          Except String (List Nat × List PProxy)), rest, dead)
        ⟨chainShapeEq_refl rest, ⟨[], rfl, by simp⟩,
         fun conn combo h => by cases h⟩
      obtain ⟨hshape, hdead, hok⟩ := hinv
      have heq : dialChainRecursive sh env fh fp (fuel + 1)
          (hop :: rest) acc dead =
          (((orderedProxies sh hop dead).1.foldl
            (fun (st : Except String (List Nat × List PProxy) ×
                List HopM × List Nat) (p : PProxy) =>
              match st with
              | (Except.ok r, rest2, dead2) => (Except.ok r, rest2, dead2)
              | (Except.error _, rest2, dead2) =>
                dialChainRecursive sh env fh fp fuel rest2
                  (acc ++ [p]) dead2)
            ((Except.error "no valid proxy chain" :
              Except String (List Nat × List PProxy)), rest, dead)).1,
           (orderedProxies sh hop dead).2 ::
            ((orderedProxies sh hop dead).1.foldl
            (fun (st : Except String (List Nat × List PProxy) ×
                List HopM × List Nat) (p : PProxy) =>
              match st with
              | (Except.ok r, rest2, dead2) => (Except.ok r, rest2, dead2)
              | (Except.error _, rest2, dead2) =>
                dialChainRecursive sh env fh fp fuel rest2
                  (acc ++ [p]) dead2)
            ((Except.error "no valid proxy chain" :
              Except String (List Nat × List PProxy)), rest, dead)).2.1,
           ((orderedProxies sh hop dead).1.foldl
            (fun (st : Except String (List Nat × List PProxy) ×
                List HopM × List Nat) (p : PProxy) =>
              match st with
              | (Except.ok r, rest2, dead2) => (Except.ok r, rest2, dead2)
              | (Except.error _, rest2, dead2) =>
                dialChainRecursive sh env fh fp fuel rest2
                  (acc ++ [p]) dead2)
            ((Except.error "no valid proxy chain" :
              Except String (List Nat × List PProxy)), rest, dead)).2.2) :=
        rfl
      rw [heq]
      refine ⟨?_, hdead, hok⟩
      simp only [chainShapeEq, Bool.and_eq_true]
      exact ⟨orderedProxies_shape sh hop dead, hshape⟩

/-- C6: the cache discipline of `dialChain`.  With a cached combo, a
successful `connectThrough` only refreshes `lastUsed` (the combo and the
chain counters are untouched) and returns the conduit; a failed fast
path discards the cache and falls through to the search on the
cache-less state.  A slow-path success installs a copy of the selected
combo as the new cache with `lastUsed = now`; that combo has exactly one
entry per chain hop, each drawn from a selector run (hence from the
live-filtered pool at that moment), accepted by the environment, and
still alive when the cache is committed. -/
theorem dialChain_cache (sh : List PProxy → List PProxy) (env : Nat → Bool)
    (now : Nat) (st : ChainStateM) (fh : String) (fp : Nat)
    (dead : List Nat)
    (hsh : ∀ l x, x ∈ sh l → x ∈ l)
    (hpool : ∀ hop ∈ st.chain, 0 < hop.proxies.length) :
    (∀ c conn, st.cache = some c →
      (connectThrough env c.combo fh fp dead).1 = .ok conn →
      dialChain sh env now st fh fp dead =
        (.ok conn, { st with cache := some ⟨c.combo, now⟩ },
         (connectThrough env c.combo fh fp dead).2.1))
    ∧ (∀ c e, st.cache = some c →
      (connectThrough env c.combo fh fp dead).1 = .error e →
      dialChain sh env now st fh fp dead =
        dialChain sh env now { st with cache := none } fh fp
          (connectThrough env c.combo fh fp dead).2.1)
    ∧ (∀ conn, st.cache = none →
      (dialChain sh env now st fh fp dead).1 = .ok conn →
      ∃ combo,
        (dialChain sh env now st fh fp dead).2.1.cache =
          some ⟨combo, now⟩
        ∧ combo.length = st.chain.length
        ∧ (∀ k, k < st.chain.length → ∃ p hk h2 d2,
            combo.get? k = some p ∧ st.chain.get? k = some hk ∧
            hopShapeEq h2 hk = true ∧
            p ∈ (orderedProxies sh h2 d2).1 ∧
            p ∈ liveOf h2 d2 ∧
            env p.id = true ∧
            p.id ∉ (dialChain sh env now st fh fp dead).2.2)) := by
  refine ⟨?_, ?_, ?_⟩
  · intro c conn hc hok
    simp only [dialChain, hc, hok]
  · intro c e hc hok
    simp only [dialChain, hc, hok]
  · intro conn hnone hok
    obtain ⟨hshape, ⟨l, hld, hlf⟩, hokp⟩ :=
      dialChainRecursive_props sh env fh fp st.chain.length st.chain [] dead
    simp only [dialChain, hnone] at hok ⊢
    rcases hr : (dialChainRecursive sh env fh fp st.chain.length
        st.chain [] dead).1 with e | res
    · rw [hr] at hok
      simp at hok
    · rw [hr] at hok
      dsimp only at hok ⊢
      obtain ⟨hlen, _, henv, hent⟩ := hokp res.1 res.2 (by rw [hr])
      refine ⟨res.2, rfl, by simpa using hlen, ?_⟩
      intro k hk
      obtain ⟨p, hkk, h2, d2, hg1, hg2, hg3, hg4, hg5⟩ := hent k hk
      have hg1b : res.2.get? k = some p := by simpa using hg1
      have hkmem : hkk ∈ st.chain := List.get?_mem hg2
      have hpool2 : 0 < h2.proxies.length := by
        have hpx : h2.proxies = hkk.proxies := by
          simp only [hopShapeEq, Bool.and_eq_true, decide_eq_true_eq]
            at hg3
          exact hg3.1.1.1.1.1.1.2
        rw [hpx]
        exact hpool hkk hkmem
      have hlive : p ∈ liveOf h2 d2 :=
        orderedProxies_mem sh hsh h2 d2 hpool2 p hg4
      have henvp : env p.id = true := henv p (List.get?_mem hg1b)
      have hnotd2 : p.id ∉ d2 := by
        simpa using (List.mem_filter.1 hlive).2
      have hnotdead : p.id ∉ dead := fun hx => hnotd2 (hg5 p.id hx)
      refine ⟨p, hkk, h2, d2, hg1b, hg2, hg3, hg4, hlive, henvp, ?_⟩
      show p.id ∉ (dialChainRecursive sh env fh fp st.chain.length
        st.chain [] dead).2.2
      rw [hld]
      intro hmem
      rcases List.mem_append.1 hmem with hx | hx
      · rw [hlf p.id hx] at henvp
        cases henvp
      · exact hnotdead hx

/-- C6 witness: in the two-hop failover chain (no cache, proxy `B`
rejecting), the slow-path success installs a two-entry cache whose
members are live selector picks. -/
theorem dialChain_cache_witness :
    ∃ combo,
      (dialChain id (fun i => i ≠ 2) 7 failoverChain "t" 80
        []).2.1.cache = some ⟨combo, 7⟩
      ∧ combo.length = failoverChain.chain.length
      ∧ (∀ k, k < failoverChain.chain.length → ∃ p hk h2 d2,
          combo.get? k = some p ∧ failoverChain.chain.get? k = some hk ∧
          hopShapeEq h2 hk = true ∧
          p ∈ (orderedProxies id h2 d2).1 ∧
          p ∈ liveOf h2 d2 ∧
          decide (p.id ≠ 2) = true ∧
          p.id ∉ (dialChain id (fun i => i ≠ 2) 7 failoverChain "t" 80
            []).2.2) :=
  (dialChain_cache id (fun i => i ≠ 2) 7 failoverChain "t" 80 []
    (fun _ x h => h) (by decide)).2.2 [1, 3] rfl (by rfl)

end SocksStrata
